import Mathlib

/-!
Verification of the harvester-app ingestion/aggregation/pricing pipeline.

The development shallowly embeds the TypeScript source of the application
(`src/App.tsx` and the second application revision in the repository) into
Lean. JavaScript numbers are modelled as rationals (ℚ): every constant and
every arithmetic operation the verified claims touch is exact decimal
arithmetic, and `Math.sqrt` (which no verified claim depends on) is passed
in as an explicit function parameter. Fallible lookups are modelled with
`Option`.
-/

namespace HarvesterApp

/-- The fixed species categories. `Lov` stands for the broadleaf category
(written with a diacritic in the source). -/
inductive SpeciesCategory
  | Tall
  | Gran
  | Lov
deriving DecidableEq

/-- One parsed tree record, as produced by the record extractor. -/
structure Stem where
  stem_key : String
  harvest_date : String
  stem_volume : ℚ
  dbh : Option ℚ
  speciesCategory : SpeciesCategory
deriving DecidableEq

/-- Calculation settings consumed by the aggregator and the pricing engine. -/
structure CalculationParams where
  maxPerTreeTime : ℚ
  harvestingCostRate : ℚ
  forwardingSK : ℚ
  skiddingDistanceSA : ℚ
  standRemovalUT : ℚ
  k1 : ℚ
  k2 : ℚ
  c11 : ℚ

/-- One row of the computed result table. -/
structure ResultRow where
  species : SpeciesCategory
  dbhClass : ℕ
  stems : ℕ
  totalTime : ℚ
  totalVolume : ℚ
  productivity : ℚ
  harvestingCost : ℚ
  forwardingCostPerCubicMeter : ℚ
  pricePerCubicMeter : ℚ
  totalCost : ℚ
  totalPrice : ℚ
deriving DecidableEq

/-- New-model (per-bin) totals. -/
structure NewTotals where
  totalStems : ℕ
  totalVolume : ℚ
  averagePrice : ℚ
  totalPrice : ℚ
  forwardingCostPerCubicMeter : ℚ
  totalForwardingCost : ℚ
  combinedTotal : ℚ
deriving DecidableEq

/-- Legacy-model (single-bin) totals. -/
structure LegacyTotals where
  totalStems : ℕ
  totalVolume : ℚ
  averageVolume : ℚ
  averagePrice : ℚ
  totalPrice : ℚ
deriving DecidableEq

/-- One legacy price-table entry: an average-stem-volume breakpoint and its
price. -/
structure LegacyPriceEntry where
  averageVolume : ℚ
  price : ℚ
deriving DecidableEq

/-- The divisor table: per species, one optional divisor per diameter-class
index (`null` in the source is `none` here). -/
abbrev SpeciesDivisors := SpeciesCategory → List (Option ℚ)

/-- The 15 fixed average-stem-volume breakpoints of the legacy price table. -/
def LEGACY_AVERAGE_VOLUMES : List ℚ :=
  [0.2, 0.25, 0.3, 0.35, 0.4, 0.45, 0.5, 0.55, 0.6, 0.65, 0.7, 0.75, 0.8, 0.9, 1]

/-- The fixed ascending diameter-class thresholds in millimeters. -/
def DBH_CLASSES : List ℕ :=
  [80, 100, 120, 140, 160, 180, 200, 220, 240, 260, 280, 300, 320, 340, 360,
   380, 400, 420, 440, 460, 480, 500, 520, 540, 560, 580]

/-- The fixed species priority order used for row ordering and lookups. -/
def SUPPORTED_SPECIES : List SpeciesCategory := [.Tall, .Gran, .Lov]

/-- Decomposition of an accented Latin letter to its base letter, modelling
the NFD-normalize-then-strip-diacritics step of `normalizeSpeciesIdentifier`
for the letters occurring in harvester species names; every other character
is left unchanged. -/
def stripDiacritic (c : Char) : Char :=
  if c = 'å' ∨ c = 'ä' ∨ c = 'à' ∨ c = 'á' ∨ c = 'â' then 'a'
  else if c = 'Å' ∨ c = 'Ä' then 'A'
  else if c = 'ö' ∨ c = 'ò' ∨ c = 'ó' ∨ c = 'ô' then 'o'
  else if c = 'Ö' then 'O'
  else if c = 'é' ∨ c = 'è' ∨ c = 'ê' ∨ c = 'ë' then 'e'
  else if c = 'É' then 'E'
  else if c = 'ü' ∨ c = 'ù' ∨ c = 'ú' then 'u'
  else if c = 'Ü' then 'U'
  else c

/-- `value.normalize(NFD).replace(diacritics, empty).toUpperCase()`, acting
characterwise (after diacritic stripping only ASCII letters remain, so the
ASCII `Char.toUpper` matches the JavaScript `toUpperCase`). -/
def normalizeSpeciesIdentifier (value : String) : String :=
  String.mk (value.data.map (fun c => (stripDiacritic c).toUpper))

/-- Whether the character list `s` contains `pat` as a contiguous sublist;
this models a JavaScript regex alternative such as `TALL` testing a string. -/
def containsSub (s pat : List Char) : Bool :=
  s.tails.any (fun t => pat.isPrefixOf t)

/-- Whether any of the keyword alternatives matches the normalized name. -/
def testAnyKeyword (keywords : List String) (normalized : String) : Bool :=
  keywords.any (fun keyword => containsSub normalized.data keyword.data)

/-- The species classifier: first matching keyword family wins, and absent or
unmatched names fall back to the broadleaf category. -/
def mapSpeciesNameToCategory (rawName : Option String) : SpeciesCategory :=
  match rawName with
  | none => .Lov
  | some raw =>
    if raw = "" then .Lov
    else
      let normalized := normalizeSpeciesIdentifier raw
      if testAnyKeyword ["TALL", "PINE", "LARK"] normalized then .Tall
      else if testAnyKeyword ["GRAN", "SPRUCE", "BARKBORRE"] normalized then .Gran
      else if testAnyKeyword ["LOV", "BJORK", "ASP", "BOK", "EK", "OVR"] normalized then .Lov
      else .Lov

/-- The diameter binner: `null`, non-positive (and, in the source, non-finite)
diameters resolve to no class; otherwise the first threshold greater than or
equal to the diameter, falling back to the last threshold. -/
def resolveDbhClass (dbh : Option ℚ) : Option ℕ :=
  match dbh with
  | none => none
  | some d =>
    if d ≤ 0 then none
    else
      match DBH_CLASSES.find? (fun (threshold : ℕ) => decide (d ≤ (threshold : ℚ))) with
      | some threshold => some threshold
      | none => DBH_CLASSES.getLast?

/-- The divisor lookup of `calculateResults`:
`classIndex >= 0 ? speciesDivisors[species]?.[classIndex] ?? null : null`. -/
def divisorFor (divisors : SpeciesDivisors) (species : SpeciesCategory)
    (dbhClass : ℕ) : Option ℚ :=
  match DBH_CLASSES.findIdx? (fun c => decide (c = dbhClass)) with
  | none => none
  | some classIndex => (divisors species).getD classIndex none

/-- One aggregation bin: member records, summed capped time, summed volume. -/
structure BinData where
  stems : List Stem
  totalTime : ℚ
  totalVolume : ℚ
deriving DecidableEq

/-- The empty bin supplied when a key is not yet present in the map. -/
def emptyBinData : BinData := { stems := [], totalTime := 0, totalVolume := 0 }

/-- The aggregation result: a total map from (species, diameter class) to bin
data, with `emptyBinData` at absent keys; a key is populated exactly when its
member list is non-empty. -/
abbrev Aggregated := SpeciesCategory → ℕ → BinData

/-- One step of the aggregation loop over the dataset. -/
def aggStep (perStemTime : ℚ) (acc : Aggregated) (stem : Stem) : Aggregated :=
  match resolveDbhClass stem.dbh with
  | none => acc
  | some dbhClass => fun species k =>
    if species = stem.speciesCategory ∧ k = dbhClass then
      let current := acc species k
      { stems := current.stems ++ [stem]
        totalTime := current.totalTime + perStemTime
        totalVolume := current.totalVolume + stem.stem_volume }
    else acc species k

/-- `aggregateBySpeciesAndDbh`: `none` for an empty dataset, otherwise each
record with a resolvable class is folded into its bin with per-stem time
`min(maxPerTreeTime, 30)`. -/
def aggregateBySpeciesAndDbh (params : CalculationParams) (stems : List Stem) :
    Option Aggregated :=
  if stems = [] then none
  else some (stems.foldl (aggStep (min params.maxPerTreeTime 30)) (fun _ _ => emptyBinData))

/-- One comparison step of the legacy nearest-breakpoint scan: strictly closer
entries replace the running best. -/
def nearestStep (volume : ℚ) (best : LegacyPriceEntry × ℚ) (entry : LegacyPriceEntry) :
    LegacyPriceEntry × ℚ :=
  if |entry.averageVolume - volume| < best.2 then (entry, |entry.averageVolume - volume|)
  else best

/-- `getLegacyPriceForVolume`: zero for absent/non-positive volume or an empty
table, otherwise the price of the scanned nearest entry. -/
def getLegacyPriceForVolume (legacyPrices : List LegacyPriceEntry) (volume : Option ℚ) : ℚ :=
  match volume, legacyPrices with
  | none, _ => 0
  | some _, [] => 0
  | some v, e0 :: rest =>
    if v ≤ 0 then 0
    else (rest.foldl (nearestStep v) (e0, |e0.averageVolume - v|)).1.price

/-- The running-best scan of `getLegacyPriceForVolume`, named for reasoning:
`getLegacyPriceForVolume (e0 :: rest) (some v) = (nearestScan v e0 rest).1.price`
for positive `v`. -/
def nearestScan (v : ℚ) (b : LegacyPriceEntry) (l : List LegacyPriceEntry) :
    LegacyPriceEntry × ℚ :=
  l.foldl (nearestStep v) (b, |b.averageVolume - v|)

/-- One result row, built from a populated bin exactly as `calculateResults`
does. -/
def mkResultRow (params : CalculationParams) (forwardingCostPerCubicMeter : ℚ)
    (divisors : SpeciesDivisors) (species : SpeciesCategory) (dbhClass : ℕ)
    (data : BinData) : ResultRow :=
  let totalTime := data.totalTime
  let totalVolume := data.totalVolume
  let stemsCount := data.stems.length
  let productivity := if 0 < totalTime then totalVolume / (totalTime / 3600) else 0
  let harvestingCost :=
    if 0 < totalVolume then (totalTime / totalVolume) * (params.harvestingCostRate / 3600)
    else 0
  let pricePerCubicMeter :=
    match divisorFor divisors species dbhClass with
    | some divisor => if 0 < divisor then params.harvestingCostRate / divisor else 0
    | none => 0
  let totalPrice := pricePerCubicMeter * totalVolume
  let totalCost := harvestingCost + forwardingCostPerCubicMeter - pricePerCubicMeter
  { species := species
    dbhClass := dbhClass
    stems := stemsCount
    totalTime := totalTime
    totalVolume := totalVolume
    productivity := productivity
    harvestingCost := harvestingCost
    forwardingCostPerCubicMeter := forwardingCostPerCubicMeter
    pricePerCubicMeter := pricePerCubicMeter
    totalCost := totalCost
    totalPrice := totalPrice }

/-- The global forwarding cost per cubic meter computed once per calculation
run from the settings: the forwarding-time factor (zero-guarded on stand
removal) feeds the forwarding rate, plus the skidding-distance term. -/
def forwardingCostOf (sqrtQ : ℚ → ℚ) (params : CalculationParams) : ℚ :=
  let standRemoval := params.standRemovalUT
  let forwardingTimeFactor :=
    if 0 < standRemoval then
      params.k1 * (5.7 + params.k2 * standRemoval + params.c11 * sqrtQ standRemoval)
        / standRemoval
    else 0
  forwardingTimeFactor / 60 * params.forwardingSK + params.skiddingDistanceSA / 100 * 4

/-- The full calculation output: ordered rows plus both totals structures. -/
structure CalculationOutput where
  results : List ResultRow
  newTotals : NewTotals
  oldModelSummary : LegacyTotals
deriving DecidableEq

/-- `calculateResults`. In the source the per-species map keys are sorted
ascending before row construction and the row list is then re-sorted by
species priority and class, which leaves the construction order (species in
`SUPPORTED_SPECIES` order, classes ascending) unchanged: rows are produced by
the ascending scan over `DBH_CLASSES` restricted to populated bins.
`sqrtQ` is the `Math.sqrt` used by the forwarding-time factor. -/
def calculateResults (sqrtQ : ℚ → ℚ) (params : CalculationParams)
    (divisors : SpeciesDivisors) (legacyPrices : List LegacyPriceEntry)
    (stems : List Stem) : Option CalculationOutput :=
  match aggregateBySpeciesAndDbh params stems with
  | none => none
  | some aggregated =>
    let forwardingCostPerCubicMeter := forwardingCostOf sqrtQ params
    let baseResults :=
      (SUPPORTED_SPECIES.map (fun species =>
        ((DBH_CLASSES.filter (fun dbhClass => !(aggregated species dbhClass).stems.isEmpty)).map
          (fun dbhClass =>
            mkResultRow params forwardingCostPerCubicMeter divisors species dbhClass
              (aggregated species dbhClass))))).flatten
    let totalStems := (baseResults.map (fun row => row.stems)).sum
    let totalVolume := (baseResults.map (fun row => row.totalVolume)).sum
    let totalPrice := (baseResults.map (fun row => row.totalPrice)).sum
    let averagePrice := if 0 < totalVolume then totalPrice / totalVolume else 0
    let averageVolumePerStem := if 0 < totalStems then totalVolume / (totalStems : ℚ) else 0
    let totalForwardingCost := forwardingCostPerCubicMeter * totalVolume
    let combinedTotal := totalPrice + totalForwardingCost
    let legacyPrice := getLegacyPriceForVolume legacyPrices (some averageVolumePerStem)
    some
      { results := baseResults
        newTotals :=
          { totalStems := totalStems
            totalVolume := totalVolume
            averagePrice := averagePrice
            totalPrice := totalPrice
            forwardingCostPerCubicMeter := forwardingCostPerCubicMeter
            totalForwardingCost := totalForwardingCost
            combinedTotal := combinedTotal }
        oldModelSummary :=
          { totalStems := totalStems
            totalVolume := totalVolume
            averageVolume := averageVolumePerStem
            averagePrice := legacyPrice
            totalPrice := legacyPrice * totalVolume } }

/-- The numeric value of a digit list read in base 10. -/
def digitsToNat (ds : List Char) : ℕ :=
  ds.foldl (fun acc c => acc * 10 + (c.toNat - 48)) 0

/-- Replace the first comma by a dot, as `value.replace(',', '.')` does. -/
def replaceFirstComma : List Char → List Char
  | [] => []
  | c :: rest => if c = ',' then '.' :: rest else c :: replaceFirstComma rest

/-- Parse an optional sign, an integer part and an optional fractional part;
`none` for anything outside that decimal grammar. This is the fragment of the
JavaScript `Number()` grammar reachable from the numeric tokens and attribute
texts the app feeds to `parseNumber` (no exponents, no hex, no infinities). -/
def parseDecimalChars (cs : List Char) : Option ℚ :=
  let signSplit : ℚ × List Char :=
    match cs with
    | '-' :: rest => (-1, rest)
    | '+' :: rest => (1, rest)
    | _ => (1, cs)
  let sign := signSplit.1
  let cs1 := signSplit.2
  let intPart := cs1.takeWhile Char.isDigit
  let rest1 := cs1.dropWhile Char.isDigit
  match rest1 with
  | [] => if intPart.isEmpty then none else some (sign * digitsToNat intPart)
  | sep :: frac =>
    if sep = '.' ∧ frac.all Char.isDigit ∧ ¬(intPart.isEmpty ∧ frac.isEmpty) then
      some (sign * ((digitsToNat intPart : ℚ) + (digitsToNat frac : ℚ) / (10 : ℚ) ^ frac.length))
    else none

/-- `parseNumber`: trim, drop internal whitespace, turn the first comma into a
dot, then `Number(...)` with non-finite results collapsed to zero. -/
def parseNumber (value : String) : ℚ :=
  let normalized := replaceFirstComma (value.data.filter (fun c => !c.isWhitespace))
  match normalized with
  | [] => 0
  | _ => (parseDecimalChars normalized).getD 0

/-- Greedy match of the token regex `-?\d+(?:[.,]\d+)?` anchored at the head
of the character list: the token and the remaining characters, or `none`. -/
def matchTokenAt (cs : List Char) : Option (List Char × List Char) :=
  let negSplit : List Char × List Char :=
    match cs with
    | '-' :: rest => (['-'], rest)
    | _ => ([], cs)
  let neg := negSplit.1
  let cs1 := negSplit.2
  let ds := cs1.takeWhile Char.isDigit
  let cs2 := cs1.dropWhile Char.isDigit
  if ds.isEmpty then none
  else
    match cs2 with
    | [] => some (neg ++ ds, [])
    | sep :: cs3 =>
      if sep = '.' ∨ sep = ',' then
        let fs := cs3.takeWhile Char.isDigit
        let cs4 := cs3.dropWhile Char.isDigit
        if fs.isEmpty then some (neg ++ ds, cs2) else some (neg ++ ds ++ sep :: fs, cs4)
      else some (neg ++ ds, cs2)

/-- Left-to-right scan collecting every non-overlapping token match; the fuel
argument is the length of the remaining input, which bounds the recursion. -/
def scanTokens : ℕ → List Char → List (List Char)
  | 0, _ => []
  | _, [] => []
  | fuel + 1, c :: rest =>
    match matchTokenAt (c :: rest) with
    | some (tok, after) => tok :: scanTokens fuel after
    | none => scanTokens fuel rest

/-- `line.match(tokenRegex) ?? []`: every numeric token of the line. -/
def numericTokensForLine (line : String) : List String :=
  (scanTokens line.data.length line.data).map String.mk

/-- `value.trim()`: strip leading and trailing whitespace, characterwise. -/
def jsTrim (s : String) : String :=
  String.mk (((s.data.dropWhile Char.isWhitespace).reverse.dropWhile Char.isWhitespace).reverse)

/-- Split a character list at every newline, keeping the pieces. -/
def splitOnNewline : List Char → List (List Char)
  | [] => [[]]
  | c :: rest =>
    if c = '\n' then [] :: splitOnNewline rest
    else
      match splitOnNewline rest with
      | [] => [[c]]
      | piece :: pieces => (c :: piece) :: pieces

/-- `text.split(/\r?\n/)`: split at newlines, absorbing a carriage return
immediately before each newline. -/
def splitLines (text : String) : List String :=
  ((splitOnNewline text.data).map (fun piece =>
    if piece.getLast? = some '\r' then piece.dropLast else piece)).map String.mk

/-- The in-flight state of one bulk-import pass: the working copy of the
price table, the set of indices assigned during this pass, the positional
cursor, and whether anything was committed. -/
structure ImportState where
  next : List LegacyPriceEntry
  assigned : List ℕ
  fallbackIndex : ℕ
  updated : Bool
deriving DecidableEq

/-- The tolerance used to match a token against a breakpoint. -/
def IMPORT_TOLERANCE : ℚ := 1e-6

/-- The first token whose positive value matches a breakpoint within the
tolerance, with the matched breakpoint index; `none` when no token matches. -/
def lineFirstMatch (tokens : List String) : Option (ℕ × ℚ) :=
  (tokens.filterMap (fun token =>
    let value := parseNumber token
    if value ≤ 0 then none
    else
      (LEGACY_AVERAGE_VOLUMES.findIdx?
        (fun volume => decide (|volume - value| < IMPORT_TOLERANCE))).map
        (fun volumeIndex => (volumeIndex, value)))).head?

/-- `attemptAssign`: commit the parsed token as the price at `index` when it
is strictly positive and the index is in range; otherwise leave the state
unchanged. -/
def attemptAssign (st : ImportState) (index : ℕ) (priceToken : Option String) : ImportState :=
  match priceToken with
  | none => st
  | some token =>
    if index < st.next.length then
      let priceValue := parseNumber token
      if 0 < priceValue then
        { st with
          next := st.next.set index
            { st.next.getD index { averageVolume := 0, price := 0 } with price := priceValue }
          assigned := index :: st.assigned
          updated := true }
      else st
    else st

/-- The re-selection applied when the target index was already assigned by an
earlier line of the same pass: prefer a still-distinguishable positive token
(`!matchedVolume` in the source is truthy for an absent or zero volume). -/
def secondAdjust (tokens : List String) (assigned : List ℕ) (matchedIndex : ℕ)
    (matchedVolume : Option ℚ) (priceToken : Option String) : Option String :=
  if matchedIndex ∈ assigned then
    match tokens.find? (fun token =>
        decide (0 < parseNumber token) &&
          match matchedVolume with
          | none => true
          | some mv => decide (mv = 0) || decide (IMPORT_TOLERANCE < |parseNumber token - mv|)) with
    | some token => some token
    | none => priceToken
  else priceToken

/-- The loop body of the positional cursor advance, with a fuel argument
bounding the iteration count structurally. -/
def advanceCursorAux (assigned : List ℕ) (len : ℕ) : ℕ → ℕ → ℕ
  | 0, f => f
  | fuel + 1, f =>
    if f < len ∧ f ∈ assigned then advanceCursorAux assigned len fuel (f + 1) else f

/-- The positional cursor advance: skip indices already assigned, stopping at
the table length. `len - f` steps of fuel always suffice: each iteration
increases the cursor and requires it below `len`, so exhausted fuel coincides
with a false loop condition. -/
def advanceCursor (assigned : List ℕ) (len f : ℕ) : ℕ :=
  advanceCursorAux assigned len (len - f) f

/-- Processing of one pasted line of `applyBulkPricing`. -/
def processLine (st : ImportState) (rawLine : String) : ImportState :=
  let line := jsTrim rawLine
  if line = "" then st
  else
    let tokens := numericTokensForLine line
    if tokens = [] then st
    else
      match lineFirstMatch tokens with
      | some (matchedIndex, matchedVolume) =>
        let priceToken : Option String :=
          match tokens.find?
              (fun token => decide (IMPORT_TOLERANCE < |parseNumber token - matchedVolume|)) with
          | some token => some token
          | none => tokens.getLast?
        attemptAssign st matchedIndex
          (secondAdjust tokens st.assigned matchedIndex (some matchedVolume) priceToken)
      | none =>
        let f := advanceCursor st.assigned st.next.length st.fallbackIndex
        if st.next.length ≤ f then { st with fallbackIndex := f }
        else
          let st1 := { st with fallbackIndex := f + 1 }
          attemptAssign st1 f (secondAdjust tokens st1.assigned f none tokens.getLast?)

/-- The full state after a bulk-import pass over the pasted text. -/
def applyBulkPricingState (text : String) (previous : List LegacyPriceEntry) : ImportState :=
  (splitLines (jsTrim text)).foldl processLine
    { next := previous, assigned := [], fallbackIndex := 0, updated := false }

/-- `applyBulkPricing`: the updated price table and whether at least one entry
was committed; blank text reports failure without touching the table. -/
def applyBulkPricing (text : String) (previous : List LegacyPriceEntry) :
    List LegacyPriceEntry × Bool :=
  if jsTrim text = "" then (previous, false)
  else
    let st := applyBulkPricingState text previous
    (st.next, st.updated)

/-- The paste-panel state the bulk-import button manipulates. -/
structure BulkPasteUI where
  bulkPriceText : String
  showBulkPaste : Bool
  legacyPrices : List LegacyPriceEntry
deriving DecidableEq

/-- `handleApplyBulkPricing`: run the import and, exactly on success, clear
the paste input and close the paste panel. -/
def handleApplyBulkPricing (ui : BulkPasteUI) : BulkPasteUI :=
  let result := applyBulkPricing ui.bulkPriceText ui.legacyPrices
  if result.2 then
    { bulkPriceText := "", showBulkPaste := false, legacyPrices := result.1 }
  else
    { ui with legacyPrices := result.1 }

/-- The outcome of parsing one uploaded file: its records and its diagnostic
log count. A file whose parse throws is caught and contributes nothing. -/
structure ParsedFile where
  stems : List Stem
  logCount : ℕ
deriving DecidableEq

/-- `processFiles`: concatenate the records of the successfully parsed files,
starting from the previous dataset when appending, from scratch otherwise; an
empty selection leaves the dataset untouched. -/
def processFiles (append : Bool) (prevStems : List Stem) (prevLogCount : ℕ)
    (selectedFiles : List (Option ParsedFile)) : List Stem × ℕ :=
  if selectedFiles = [] then (prevStems, prevLogCount)
  else
    selectedFiles.foldl
      (fun acc file =>
        match file with
        | none => acc
        | some parsed => (acc.1 ++ parsed.stems, acc.2 + parsed.logCount))
      (if append then (prevStems, prevLogCount) else ([], 0))

/-- Whether a record belongs to the (species, class) bin: its category is the
species and its diameter resolves to the class. -/
def binPred (species : SpeciesCategory) (dbhClass : ℕ) (s : Stem) : Bool :=
  decide (s.speciesCategory = species ∧ resolveDbhClass s.dbh = some dbhClass)

/-- The initial legacy price table of the app: one zero-priced entry per
fixed breakpoint, in ascending breakpoint order. -/
def initialLegacyPrices : List LegacyPriceEntry :=
  LEGACY_AVERAGE_VOLUMES.map (fun averageVolume => { averageVolume := averageVolume, price := 0 })

/-- The single record of the §8 pricing scenario: diameter 150 mm, volume
0.8 m³, a species name matching the spruce family. -/
def scenarioStem : Stem :=
  { stem_key := "stem_0"
    harvest_date := "2024-01-01T00:00:00"
    stem_volume := 0.8
    dbh := some 150
    speciesCategory := mapSpeciesNameToCategory (some "Gran") }

/-- The default calculation parameters of the app (harvestingCostRate 1800). -/
def scenarioParams : CalculationParams :=
  { maxPerTreeTime := 600
    harvestingCostRate := 1800
    forwardingSK := 1500
    skiddingDistanceSA := 300
    standRemovalUT := 280
    k1 := 1
    k2 := 0.73
    c11 := 11.45 }

/-- A divisor table whose only configured divisor is 20 for the spruce
category at the 160 mm class (class index 4). -/
def scenarioDivisors : SpeciesDivisors := fun species =>
  if species = .Gran then List.replicate 4 none ++ some 20 :: List.replicate 21 none
  else List.replicate 26 none

/-- A parsed upload carrying the scenario record, used by concrete runs. -/
def scenarioFile : ParsedFile := { stems := [scenarioStem], logCount := 3 }

/-- The import state at the start of a bulk-import pass over the initial
price table. -/
def initImportState : ImportState :=
  { next := initialLegacyPrices, assigned := [], fallbackIndex := 0, updated := false }

/-- A divisor table with every entry unset. -/
def unpricedDivisors : SpeciesDivisors := fun _ => List.replicate 26 none

/-- The single result row the scenario dataset produces under the all-unset
divisor table. -/
def scenarioRowUnpriced : ResultRow :=
  { species := .Gran
    dbhClass := 160
    stems := 1
    totalTime := 30
    totalVolume := 4 / 5
    productivity := 96
    harvestingCost := 75 / 4
    forwardingCostPerCubicMeter := 3445 / 112
    pricePerCubicMeter := 0
    totalCost := 5545 / 112
    totalPrice := 0 }

/-! ### Generic list helpers -/

theorem find?_some_decomp {α : Type} (p : α → Bool) (l : List α) (c : α)
    (h : l.find? p = some c) :
    p c = true ∧ ∃ pre post, l = pre ++ c :: post ∧ ∀ x ∈ pre, p x = false := by
  induction l with
  | nil => simp [List.find?] at h
  | cons a as ih =>
    rw [List.find?_cons] at h
    rcases hpa : p a with _ | _
    · rw [hpa] at h
      obtain ⟨hc, pre, post, hdec, hpre⟩ := ih h
      refine ⟨hc, a :: pre, post, by rw [hdec]; rfl, ?_⟩
      intro x hx
      rcases List.mem_cons.mp hx with hx | hx
      · rw [hx]; exact hpa
      · exact hpre x hx
    · rw [hpa] at h
      obtain rfl := Option.some_injective _ h
      exact ⟨hpa, [], as, rfl, by simp⟩

/-! ### C5: the diameter binner -/

/-- C5. For every strictly positive diameter, `resolveDbhClass` returns the
first threshold of the ascending class list that is at least the diameter
(every earlier threshold is strictly below it), and the largest threshold 580
when the diameter exceeds every threshold; an absent or non-positive diameter
resolves to no class, so no record is excluded for being too large. -/
theorem resolveDbhClass_first_threshold (d : ℚ) :
    resolveDbhClass none = none ∧
    (d ≤ 0 → resolveDbhClass (some d) = none) ∧
    (0 < d → ∃ c pre post, resolveDbhClass (some d) = some c ∧
      DBH_CLASSES = pre ++ c :: post ∧ (∀ t ∈ pre, (t : ℚ) < d) ∧
      (d ≤ (c : ℚ) ∨ (c = 580 ∧ ∀ t ∈ DBH_CLASSES, (t : ℚ) < d))) := by
  refine ⟨rfl, fun h => by simp [resolveDbhClass, h], fun hd => ?_⟩
  rw [resolveDbhClass, if_neg (not_le.mpr hd)]
  rcases hfind : DBH_CLASSES.find? (fun (threshold : ℕ) => decide (d ≤ (threshold : ℚ)))
    with _ | c
  · have hall : ∀ t ∈ DBH_CLASSES, (t : ℚ) < d := by
      intro t ht
      have := List.find?_eq_none.mp hfind t ht
      simpa using this
    have hlast : DBH_CLASSES.getLast? = some 580 := by decide
    obtain ⟨ys, hys⟩ := List.getLast?_eq_some_iff.mp hlast
    refine ⟨580, ys, [], hlast, by simpa using hys, ?_, Or.inr ⟨rfl, hall⟩⟩
    intro t ht
    exact hall t (by rw [hys]; exact List.mem_append_left _ ht)
  · obtain ⟨hc, pre, post, hdec, hpre⟩ := find?_some_decomp _ _ _ hfind
    refine ⟨c, pre, post, rfl, hdec, ?_, Or.inl (by simpa using hc)⟩
    intro t ht
    have := hpre t ht
    simpa using this

/-! ### C4: the legacy nearest-volume lookup -/

theorem nearestScan_spec (v : ℚ) (l : List LegacyPriceEntry) (b : LegacyPriceEntry) :
    ((nearestScan v b l).1 = b ∧
        ∀ e ∈ l, |b.averageVolume - v| ≤ |e.averageVolume - v|) ∨
      ∃ l1 l2, l = l1 ++ (nearestScan v b l).1 :: l2 ∧
        |(nearestScan v b l).1.averageVolume - v| < |b.averageVolume - v| ∧
        (∀ e ∈ l1, |(nearestScan v b l).1.averageVolume - v| < |e.averageVolume - v|) ∧
        (∀ e ∈ l2, |(nearestScan v b l).1.averageVolume - v| ≤ |e.averageVolume - v|) := by
  induction l generalizing b with
  | nil => exact Or.inl ⟨rfl, by simp⟩
  | cons x xs ih =>
    by_cases h : |x.averageVolume - v| < |b.averageVolume - v|
    · have hstep : nearestScan v b (x :: xs) = nearestScan v x xs := by
        simp [nearestScan, nearestStep, List.foldl_cons, if_pos h]
      rw [hstep]
      rcases ih x with ⟨hr1, hall⟩ | ⟨l1, l2, hdec, hlt, hpre, hpost⟩
      · refine Or.inr ⟨[], xs, by rw [hr1]; rfl, by rw [hr1]; exact h, by simp, ?_⟩
        intro e he
        rw [hr1]
        exact hall e he
      · refine Or.inr ⟨x :: l1, l2, ?_, lt_trans hlt h, ?_, hpost⟩
        · conv_lhs => rw [hdec]
          simp
        · intro e he
          rcases List.mem_cons.mp he with rfl | he
          · exact hlt
          · exact hpre e he
    · have hstep : nearestScan v b (x :: xs) = nearestScan v b xs := by
        simp [nearestScan, nearestStep, List.foldl_cons, if_neg h]
      rw [hstep]
      rcases ih b with ⟨hr1, hall⟩ | ⟨l1, l2, hdec, hlt, hpre, hpost⟩
      · refine Or.inl ⟨hr1, ?_⟩
        intro e he
        rcases List.mem_cons.mp he with rfl | he
        · exact not_lt.mp h
        · exact hall e he
      · refine Or.inr ⟨x :: l1, l2, ?_, hlt, ?_, hpost⟩
        · conv_lhs => rw [hdec]
          simp
        · intro e he
          rcases List.mem_cons.mp he with rfl | he
          · exact lt_of_lt_of_le hlt (not_lt.mp h)
          · exact hpre e he

/-- C4. For a non-empty legacy price table and a strictly positive average
volume, `getLegacyPriceForVolume` returns the price of an entry whose
breakpoint has minimal absolute difference to the volume; every entry before
the selected one is strictly farther away (so exact ties resolve to the
lower-indexed entry), and when some entry matches the volume exactly the
selected entry does too. -/
theorem getLegacyPriceForVolume_nearest (entries : List LegacyPriceEntry) (v : ℚ)
    (hne : entries ≠ []) (hv : 0 < v) :
    ∃ selected pre post,
      entries = pre ++ selected :: post ∧
      getLegacyPriceForVolume entries (some v) = selected.price ∧
      (∀ e ∈ entries, |selected.averageVolume - v| ≤ |e.averageVolume - v|) ∧
      (∀ e ∈ pre, |selected.averageVolume - v| < |e.averageVolume - v|) ∧
      ((∃ e ∈ entries, e.averageVolume = v) → selected.averageVolume = v) := by
  obtain ⟨e0, rest, rfl⟩ : ∃ e0 rest, entries = e0 :: rest := by
    cases entries with
    | nil => exact absurd rfl hne
    | cons a l => exact ⟨a, l, rfl⟩
  have hprice : getLegacyPriceForVolume (e0 :: rest) (some v) =
      (nearestScan v e0 rest).1.price := by
    rw [getLegacyPriceForVolume, if_neg (not_le.mpr hv)]
    rfl
  have hmin : ∀ r : LegacyPriceEntry,
      (∀ e ∈ e0 :: rest, |r.averageVolume - v| ≤ |e.averageVolume - v|) →
      ((∃ e ∈ e0 :: rest, e.averageVolume = v) → r.averageVolume = v) := by
    rintro r hall ⟨e, he, heq⟩
    have h0 : |e.averageVolume - v| = 0 := by rw [heq]; simp
    have := hall e he
    rw [h0] at this
    have habs : |r.averageVolume - v| = 0 := le_antisymm this (abs_nonneg _)
    linarith [sub_eq_zero.mp (abs_eq_zero.mp habs)]
  rcases nearestScan_spec v rest e0 with ⟨hr1, hall⟩ | ⟨l1, l2, hdec, hlt, hpre, hpost⟩
  · refine ⟨e0, [], rest, rfl, by rw [hprice, hr1], ?_, by simp, ?_⟩
    · intro e he
      rcases List.mem_cons.mp he with rfl | he
      · exact le_refl _
      · exact hall e he
    · refine hmin e0 ?_
      intro e he
      rcases List.mem_cons.mp he with rfl | he
      · exact le_refl _
      · exact hall e he
  · have hallmem : ∀ e ∈ e0 :: rest,
        |(nearestScan v e0 rest).1.averageVolume - v| ≤ |e.averageVolume - v| := by
      intro e he
      rcases List.mem_cons.mp he with rfl | he
      · exact le_of_lt hlt
      · rw [hdec] at he
        rcases List.mem_append.mp he with he | he
        · exact le_of_lt (hpre e he)
        · rcases List.mem_cons.mp he with rfl | he
          · exact le_refl _
          · exact hpost e he
    refine ⟨(nearestScan v e0 rest).1, e0 :: l1, l2, ?_, hprice, hallmem, ?_,
      hmin _ hallmem⟩
    · conv_lhs => rw [hdec]
      simp
    · intro e he
      rcases List.mem_cons.mp he with rfl | he
      · exact hlt
      · exact hpre e he

/-- Witness for C4: the nearest-entry characterization applied to the initial
15-breakpoint table at average volume 0.25. -/
theorem getLegacyPriceForVolume_nearest_witness :
    ∃ selected pre post,
      initialLegacyPrices = pre ++ selected :: post ∧
      getLegacyPriceForVolume initialLegacyPrices (some 0.25) = selected.price ∧
      (∀ e ∈ initialLegacyPrices,
        |selected.averageVolume - 0.25| ≤ |e.averageVolume - 0.25|) ∧
      (∀ e ∈ pre, |selected.averageVolume - 0.25| < |e.averageVolume - 0.25|) ∧
      ((∃ e ∈ initialLegacyPrices, e.averageVolume = 0.25) →
        selected.averageVolume = 0.25) :=
  getLegacyPriceForVolume_nearest initialLegacyPrices 0.25 (by decide) (by norm_num)

/-! ### The aggregation fold -/

/-- Every resolvable diameter class is one of the fixed thresholds. -/
theorem resolveDbhClass_mem (d : Option ℚ) (c : ℕ) (h : resolveDbhClass d = some c) :
    c ∈ DBH_CLASSES := by
  rcases d with _ | v
  · simp [resolveDbhClass] at h
  · rw [resolveDbhClass] at h
    split at h
    · exact absurd h (by simp)
    · rcases hfind : DBH_CLASSES.find? (fun (threshold : ℕ) => decide (v ≤ (threshold : ℚ)))
        with _ | t
      · rw [hfind] at h
        have h580 : DBH_CLASSES.getLast? = some 580 := by decide
        rw [h580] at h
        obtain rfl := Option.some_injective _ h
        decide
      · rw [hfind] at h
        obtain rfl := Option.some_injective _ h
        exact List.mem_of_find?_eq_some hfind

/-- The aggregation fold builds, in every bin, exactly the sublist of records
belonging to that bin, together with the matching accumulated time and
volume. -/
theorem agg_foldl_apply (pt : ℚ) (stems : List Stem) (acc : Aggregated)
    (sp : SpeciesCategory) (k : ℕ) :
    ((stems.foldl (aggStep pt) acc) sp k).stems
        = (acc sp k).stems ++ stems.filter (binPred sp k) ∧
    ((stems.foldl (aggStep pt) acc) sp k).totalTime
        = (acc sp k).totalTime + pt * ((stems.filter (binPred sp k)).length : ℚ) ∧
    ((stems.foldl (aggStep pt) acc) sp k).totalVolume
        = (acc sp k).totalVolume
            + ((stems.filter (binPred sp k)).map (fun s => s.stem_volume)).sum := by
  induction stems generalizing acc with
  | nil => simp
  | cons s rest ih =>
    rw [List.foldl_cons]
    rcases hres : resolveDbhClass s.dbh with _ | c
    · have hstep : aggStep pt acc s = acc := by rw [aggStep, hres]
      have hp : binPred sp k s = false := by
        simp [binPred, hres]
      rw [hstep, List.filter_cons, hp]
      exact ih acc
    · by_cases hcond : sp = s.speciesCategory ∧ k = c
      · have hp : binPred sp k s = true := by
          simp [binPred, hres, hcond.1.symm, hcond.2.symm]
        have hstep : (aggStep pt acc s) sp k =
            { stems := (acc sp k).stems ++ [s]
              totalTime := (acc sp k).totalTime + pt
              totalVolume := (acc sp k).totalVolume + s.stem_volume } := by
          rw [aggStep, hres]
          exact if_pos hcond
        obtain ⟨ih1, ih2, ih3⟩ := ih (aggStep pt acc s)
        have hfc : List.filter (binPred sp k) (s :: rest)
            = s :: List.filter (binPred sp k) rest := by
          simp [List.filter_cons, hp]
        rw [hfc]
        refine ⟨?_, ?_, ?_⟩
        · rw [ih1, hstep]
          simp
        · rw [ih2, hstep]
          simp only [List.length_cons]
          push_cast
          ring
        · rw [ih3, hstep]
          simp only [List.map_cons, List.sum_cons]
          ring
      · have hp : binPred sp k s = false := by
          simp only [binPred, hres, decide_eq_false_iff_not]
          rintro ⟨h1, h2⟩
          exact hcond ⟨h1.symm, (Option.some_injective _ h2).symm⟩
        have hstep : (aggStep pt acc s) sp k = acc sp k := by
          rw [aggStep, hres]
          exact if_neg hcond
        obtain ⟨ih1, ih2, ih3⟩ := ih (aggStep pt acc s)
        rw [List.filter_cons, hp]
        rw [ih1, ih2, ih3, hstep]
        exact ⟨rfl, rfl, rfl⟩

/-- Unfolding of a successful aggregation run. -/
theorem aggregate_eq (params : CalculationParams) (stems : List Stem) (agg : Aggregated)
    (h : aggregateBySpeciesAndDbh params stems = some agg) :
    stems ≠ [] ∧
    agg = stems.foldl (aggStep (min params.maxPerTreeTime 30)) (fun _ _ => emptyBinData) := by
  rw [aggregateBySpeciesAndDbh] at h
  split at h
  · exact absurd h (by simp)
  · exact ⟨by assumption, (Option.some_injective _ h).symm⟩

/-- The contents of every bin of a successful aggregation run. -/
theorem aggregate_bins (params : CalculationParams) (stems : List Stem) (agg : Aggregated)
    (h : aggregateBySpeciesAndDbh params stems = some agg) (sp : SpeciesCategory) (k : ℕ) :
    (agg sp k).stems = stems.filter (binPred sp k) ∧
    (agg sp k).totalTime
        = min params.maxPerTreeTime 30 * ((stems.filter (binPred sp k)).length : ℚ) ∧
    (agg sp k).totalVolume = ((stems.filter (binPred sp k)).map (fun s => s.stem_volume)).sum := by
  obtain ⟨-, rfl⟩ := aggregate_eq params stems agg h
  obtain ⟨h1, h2, h3⟩ :=
    agg_foldl_apply (min params.maxPerTreeTime 30) stems (fun _ _ => emptyBinData) sp k
  simp [emptyBinData] at h1 h2 h3
  exact ⟨h1, h2, h3⟩

/-! ### C6: the per-stem time cap -/

/-- C6. In every aggregation run, each bin accumulates exactly
`min(maxPerTreeTime, 30)` seconds per contributing record — its total time is
its stem count times that per-stem value — and the per-stem value never
exceeds the 30-second ceiling nor the configured maximum. -/
theorem aggregate_time_capped (params : CalculationParams) (stems : List Stem)
    (agg : Aggregated) (h : aggregateBySpeciesAndDbh params stems = some agg) :
    (∀ sp k, (agg sp k).totalTime
        = ((agg sp k).stems.length : ℚ) * min params.maxPerTreeTime 30) ∧
    min params.maxPerTreeTime 30 ≤ 30 ∧
    min params.maxPerTreeTime 30 ≤ params.maxPerTreeTime := by
  refine ⟨fun sp k => ?_, min_le_right _ _, min_le_left _ _⟩
  obtain ⟨h1, h2, -⟩ := aggregate_bins params stems agg h sp k
  rw [h2, h1, mul_comm]

/-- Witness for C6: the single-record scenario dataset. -/
theorem aggregate_time_capped_witness :
    ∃ agg, aggregateBySpeciesAndDbh scenarioParams [scenarioStem] = some agg ∧
      ((∀ sp k, (agg sp k).totalTime
          = ((agg sp k).stems.length : ℚ) * min scenarioParams.maxPerTreeTime 30) ∧
        min scenarioParams.maxPerTreeTime 30 ≤ 30 ∧
        min scenarioParams.maxPerTreeTime 30 ≤ scenarioParams.maxPerTreeTime) :=
  ⟨_, rfl, aggregate_time_capped scenarioParams [scenarioStem] _ rfl⟩

/-! ### C2: stem counts partition over the bins -/

theorem sum_map_add_naturals {α : Type} (l : List α) (f g : α → ℕ) :
    (l.map (fun x => f x + g x)).sum = (l.map f).sum + (l.map g).sum := by
  induction l with
  | nil => simp
  | cons x xs ih =>
    simp only [List.map_cons, List.sum_cons, ih]
    omega

theorem sum_single_indicator {α : Type} [DecidableEq α] (l : List α) (a : α)
    (hnd : l.Nodup) (ha : a ∈ l) :
    (l.map (fun x => if x = a then (1 : ℕ) else 0)).sum = 1 := by
  induction l with
  | nil => cases ha
  | cons x xs ih =>
    rcases List.mem_cons.mp ha with rfl | ha2
    · have hnotin : a ∉ xs := (List.nodup_cons.mp hnd).1
      simp only [List.map_cons, List.sum_cons, if_pos rfl]
      have hz : (xs.map (fun x => if x = a then (1 : ℕ) else 0)).sum = 0 := by
        refine List.sum_eq_zero ?_
        intro y hy
        obtain ⟨z, hz, rfl⟩ := List.mem_map.mp hy
        have hne : ¬(z = a) := fun h => hnotin (h ▸ hz)
        simp [hne]
      rw [hz]
      simp
    · have hx : ¬(x = a) := fun h => (List.nodup_cons.mp hnd).1 (h ▸ ha2)
      simp only [List.map_cons, List.sum_cons, if_neg hx]
      rw [ih (List.nodup_cons.mp hnd).2 ha2]

theorem sum_map_filter_eq {α : Type} (l : List α) (p : α → Bool) (f : α → ℕ)
    (h : ∀ x ∈ l, p x = false → f x = 0) :
    ((l.filter p).map f).sum = (l.map f).sum := by
  induction l with
  | nil => simp
  | cons x xs ih =>
    have htail : ((xs.filter p).map f).sum = (xs.map f).sum :=
      ih (fun y hy => h y (List.mem_cons_of_mem _ hy))
    rw [List.filter_cons]
    by_cases hp : p x = true
    · rw [if_pos hp, List.map_cons, List.sum_cons, List.map_cons, List.sum_cons, htail]
    · have hp' : p x = false := by
        revert hp
        cases p x <;> simp
      rw [if_neg hp, htail, List.map_cons, List.sum_cons,
        h x (List.mem_cons_self x xs) hp']
      omega

/-- For a single record, summing its bin-membership indicator over every
(species, class) pair gives one exactly when its diameter resolves. -/
theorem binPred_indicator (s : Stem) :
    (SUPPORTED_SPECIES.map (fun sp =>
      (DBH_CLASSES.map (fun c => if binPred sp c s then (1 : ℕ) else 0)).sum)).sum
    = if (resolveDbhClass s.dbh).isSome then 1 else 0 := by
  rcases hres : resolveDbhClass s.dbh with _ | c0
  · have hall : ∀ sp c, binPred sp c s = false := by
      intro sp c
      simp [binPred, hres]
    simp [hall]
  · have hc0 : c0 ∈ DBH_CLASSES := resolveDbhClass_mem _ _ hres
    have hinner : ∀ sp, (DBH_CLASSES.map (fun c => if binPred sp c s then (1 : ℕ) else 0)).sum
        = if sp = s.speciesCategory then 1 else 0 := by
      intro sp
      by_cases hsp : sp = s.speciesCategory
      · rw [if_pos hsp]
        have hκ : ∀ c ∈ DBH_CLASSES,
            (if binPred sp c s then (1 : ℕ) else 0) = if c = c0 then 1 else 0 := by
          intro c hc
          by_cases hcc : c = c0
          · simp [binPred, hres, hsp.symm, hcc]
          · have : binPred sp c s = false := by
              simp only [binPred, hres, decide_eq_false_iff_not]
              rintro ⟨-, h2⟩
              exact hcc (Option.some_injective _ h2).symm
            simp [this, hcc]
        rw [List.map_congr_left hκ]
        exact sum_single_indicator _ _ (by decide) hc0
      · have hκ : ∀ c ∈ DBH_CLASSES, (if binPred sp c s then (1 : ℕ) else 0) = 0 := by
          intro c hc
          have : binPred sp c s = false := by
            simp only [binPred, decide_eq_false_iff_not]
            rintro ⟨h1, -⟩
            exact hsp h1.symm
          simp [this]
        rw [if_neg hsp, List.map_congr_left hκ]
        exact List.sum_eq_zero (by simp)
    rw [List.map_congr_left (fun sp _ => hinner sp)]
    have hcat : s.speciesCategory ∈ SUPPORTED_SPECIES := by
      cases s.speciesCategory <;> decide
    rw [sum_single_indicator SUPPORTED_SPECIES s.speciesCategory (by decide) hcat]
    simp [hres]

/-- Summing bin sizes over every (species, class) pair counts exactly the
records with a resolvable diameter class. -/
theorem binPred_partition (stems : List Stem) :
    (SUPPORTED_SPECIES.map (fun sp =>
      (DBH_CLASSES.map (fun c => (stems.filter (binPred sp c)).length)).sum)).sum
    = (stems.filter (fun s => (resolveDbhClass s.dbh).isSome)).length := by
  induction stems with
  | nil => simp
  | cons s rest ih =>
    have hlen : ∀ (sp : SpeciesCategory) (c : ℕ),
        ((s :: rest).filter (binPred sp c)).length
        = (if binPred sp c s then 1 else 0) + (rest.filter (binPred sp c)).length := by
      intro sp c
      rw [List.filter_cons]
      rcases h : binPred sp c s with _ | _
      · simp
      · simp [Nat.add_comm]
    have hstep1 : ∀ sp : SpeciesCategory,
        (DBH_CLASSES.map (fun c => ((s :: rest).filter (binPred sp c)).length)).sum
        = (DBH_CLASSES.map (fun c => if binPred sp c s then (1 : ℕ) else 0)).sum
          + (DBH_CLASSES.map (fun c => (rest.filter (binPred sp c)).length)).sum := by
      intro sp
      rw [List.map_congr_left (fun c _ => hlen sp c), sum_map_add_naturals]
    rw [List.map_congr_left (fun sp _ => hstep1 sp), sum_map_add_naturals, binPred_indicator,
      ih, List.filter_cons]
    rcases hq : (resolveDbhClass s.dbh).isSome with _ | _
    · simp
    · simp [Nat.add_comm]

/-- Unfolding of a successful calculation run: the aggregation it ran on, the
shape of its row list, and its new-model totals as sums over the rows. -/
theorem calculateResults_some (sqrtQ : ℚ → ℚ) (params : CalculationParams)
    (divisors : SpeciesDivisors) (legacyPrices : List LegacyPriceEntry)
    (stems : List Stem) (out : CalculationOutput)
    (h : calculateResults sqrtQ params divisors legacyPrices stems = some out) :
    ∃ agg, aggregateBySpeciesAndDbh params stems = some agg ∧
      out.results = (SUPPORTED_SPECIES.map (fun species =>
        ((DBH_CLASSES.filter (fun dbhClass => !(agg species dbhClass).stems.isEmpty)).map
          (fun dbhClass => mkResultRow params (forwardingCostOf sqrtQ params) divisors species
            dbhClass (agg species dbhClass))))).flatten ∧
      out.newTotals.totalStems = (out.results.map (fun row => row.stems)).sum ∧
      out.newTotals.totalVolume = (out.results.map (fun row => row.totalVolume)).sum ∧
      out.newTotals.totalPrice = (out.results.map (fun row => row.totalPrice)).sum := by
  rw [calculateResults] at h
  rcases hagg : aggregateBySpeciesAndDbh params stems with _ | agg
  · rw [hagg] at h
    exact absurd h (by simp)
  · rw [hagg] at h
    obtain rfl := (Option.some_injective _ h).symm
    exact ⟨agg, rfl, rfl, rfl, rfl, rfl⟩

/-- C2. The sum of the `stems` fields over the result rows of a calculation
run equals the number of input records whose diameter resolves to a class,
and a record sits in the bin of a (species, class) pair exactly when that
pair is its own category and resolved class — so each resolvable record is
counted by exactly one bin and unresolvable records by none. -/
theorem calc_stems_sum_partition (sqrtQ : ℚ → ℚ) (params : CalculationParams)
    (divisors : SpeciesDivisors) (legacyPrices : List LegacyPriceEntry)
    (stems : List Stem) (out : CalculationOutput)
    (h : calculateResults sqrtQ params divisors legacyPrices stems = some out) :
    ((out.results.map (fun row => row.stems)).sum
        = (stems.filter (fun s => (resolveDbhClass s.dbh).isSome)).length) ∧
    (∀ agg, aggregateBySpeciesAndDbh params stems = some agg →
      ∀ s ∈ stems, ∀ sp k,
        (s ∈ (agg sp k).stems ↔ (s.speciesCategory = sp ∧ resolveDbhClass s.dbh = some k))) := by
  obtain ⟨agg, hagg, hres, -, -, -⟩ := calculateResults_some sqrtQ params divisors
    legacyPrices stems out h
  constructor
  · have key : ∀ sp ∈ SUPPORTED_SPECIES,
        (((DBH_CLASSES.filter (fun c => !(agg sp c).stems.isEmpty)).map
            (fun c => mkResultRow params (forwardingCostOf sqrtQ params) divisors sp c
              (agg sp c))).map (fun row => row.stems)).sum
        = (DBH_CLASSES.map (fun c => (stems.filter (binPred sp c)).length)).sum := by
      intro sp _
      rw [List.map_map]
      have hproj : ((fun row => row.stems) ∘ fun c =>
          mkResultRow params (forwardingCostOf sqrtQ params) divisors sp c (agg sp c))
          = fun c => (agg sp c).stems.length := rfl
      rw [hproj]
      have hzero : ∀ c ∈ DBH_CLASSES, (!(agg sp c).stems.isEmpty) = false →
          (agg sp c).stems.length = 0 := by
        intro c _ hfalse
        have hempty : (agg sp c).stems.isEmpty = true := by
          rcases hb : (agg sp c).stems.isEmpty with _ | _
          · rw [hb] at hfalse
            exact absurd hfalse (by simp)
          · rfl
        simp [List.isEmpty_iff.mp hempty]
      rw [sum_map_filter_eq DBH_CLASSES _ _ hzero]
      refine congrArg _ (List.map_congr_left ?_)
      intro c _
      rw [(aggregate_bins params stems agg hagg sp c).1]
    calc (out.results.map (fun row => row.stems)).sum
        = (SUPPORTED_SPECIES.map (fun sp =>
            (((DBH_CLASSES.filter (fun c => !(agg sp c).stems.isEmpty)).map
              (fun c => mkResultRow params (forwardingCostOf sqrtQ params) divisors sp c
                (agg sp c))).map (fun row => row.stems)).sum)).sum := by
          rw [hres, List.map_flatten, List.sum_flatten, List.map_map, List.map_map]
          rfl
      _ = (SUPPORTED_SPECIES.map (fun sp =>
            (DBH_CLASSES.map (fun c => (stems.filter (binPred sp c)).length)).sum)).sum :=
          congrArg _ (List.map_congr_left key)
      _ = (stems.filter (fun s => (resolveDbhClass s.dbh).isSome)).length :=
          binPred_partition stems
  · intro agg' hagg' s hs sp k
    obtain ⟨h1, -, -⟩ := aggregate_bins params stems agg' hagg' sp k
    rw [h1, List.mem_filter]
    simp [binPred, hs]

/-- Witness for C2: the single-record scenario dataset. -/
theorem calc_stems_sum_partition_witness :
    ∃ out, calculateResults (fun _ => 0) scenarioParams scenarioDivisors initialLegacyPrices
        [scenarioStem] = some out ∧
      (((out.results.map (fun row => row.stems)).sum
          = (([scenarioStem].filter (fun s => (resolveDbhClass s.dbh).isSome)).length)) ∧
        (∀ agg, aggregateBySpeciesAndDbh scenarioParams [scenarioStem] = some agg →
          ∀ s ∈ [scenarioStem], ∀ sp k,
            (s ∈ (agg sp k).stems
              ↔ (s.speciesCategory = sp ∧ resolveDbhClass s.dbh = some k)))) :=
  ⟨_, rfl, calc_stems_sum_partition (fun _ => 0) scenarioParams scenarioDivisors
    initialLegacyPrices [scenarioStem] _ rfl⟩

/-! ### C3: unpriced bins -/

theorem mkResultRow_species (params : CalculationParams) (fwd : ℚ)
    (divisors : SpeciesDivisors) (sp : SpeciesCategory) (c : ℕ) (b : BinData) :
    (mkResultRow params fwd divisors sp c b).species = sp := rfl

theorem mkResultRow_dbhClass (params : CalculationParams) (fwd : ℚ)
    (divisors : SpeciesDivisors) (sp : SpeciesCategory) (c : ℕ) (b : BinData) :
    (mkResultRow params fwd divisors sp c b).dbhClass = c := rfl

theorem mkResultRow_stems (params : CalculationParams) (fwd : ℚ)
    (divisors : SpeciesDivisors) (sp : SpeciesCategory) (c : ℕ) (b : BinData) :
    (mkResultRow params fwd divisors sp c b).stems = b.stems.length := rfl

theorem mkResultRow_totalVolume (params : CalculationParams) (fwd : ℚ)
    (divisors : SpeciesDivisors) (sp : SpeciesCategory) (c : ℕ) (b : BinData) :
    (mkResultRow params fwd divisors sp c b).totalVolume = b.totalVolume := rfl

theorem mkResultRow_price (params : CalculationParams) (fwd : ℚ)
    (divisors : SpeciesDivisors) (sp : SpeciesCategory) (c : ℕ) (b : BinData) :
    (mkResultRow params fwd divisors sp c b).pricePerCubicMeter
      = match divisorFor divisors sp c with
        | some divisor => if 0 < divisor then params.harvestingCostRate / divisor else 0
        | none => 0 := rfl

theorem mkResultRow_totalPrice (params : CalculationParams) (fwd : ℚ)
    (divisors : SpeciesDivisors) (sp : SpeciesCategory) (c : ℕ) (b : BinData) :
    (mkResultRow params fwd divisors sp c b).totalPrice
      = (mkResultRow params fwd divisors sp c b).pricePerCubicMeter * b.totalVolume := rfl

/-- Every result row arises from one (species, class) pair with a populated
bin. -/
theorem mem_results_decomp (sqrtQ : ℚ → ℚ) (params : CalculationParams)
    (divisors : SpeciesDivisors) (legacyPrices : List LegacyPriceEntry)
    (stems : List Stem) (out : CalculationOutput) (row : ResultRow)
    (h : calculateResults sqrtQ params divisors legacyPrices stems = some out)
    (hrow : row ∈ out.results) :
    ∃ agg sp c, aggregateBySpeciesAndDbh params stems = some agg ∧
      sp ∈ SUPPORTED_SPECIES ∧ c ∈ DBH_CLASSES ∧
      row = mkResultRow params (forwardingCostOf sqrtQ params) divisors sp c (agg sp c) := by
  obtain ⟨agg, hagg, hres, -, -, -⟩ := calculateResults_some sqrtQ params divisors
    legacyPrices stems out h
  rw [hres] at hrow
  obtain ⟨block, hblock, hrowin⟩ := List.mem_flatten.mp hrow
  obtain ⟨sp, hsp, rfl⟩ := List.mem_map.mp hblock
  obtain ⟨c, hc, hroweq⟩ := List.mem_map.mp hrowin
  exact ⟨agg, sp, c, hagg, hsp, (List.mem_filter.mp hc).1, hroweq.symm⟩

/-- C3. A result row whose divisor-table entry is absent or non-positive has
price and total price exactly zero, while its stem count and volume are still
those of its bin and every row still feeds the new-model stem and volume
totals. -/
theorem unpriced_bin_zero (sqrtQ : ℚ → ℚ) (params : CalculationParams)
    (divisors : SpeciesDivisors) (legacyPrices : List LegacyPriceEntry)
    (stems : List Stem) (out : CalculationOutput) (row : ResultRow)
    (hout : calculateResults sqrtQ params divisors legacyPrices stems = some out)
    (hrow : row ∈ out.results)
    (hdiv : ∀ d, divisorFor divisors row.species row.dbhClass = some d → d ≤ 0) :
    row.pricePerCubicMeter = 0 ∧ row.totalPrice = 0 ∧
    (∀ agg, aggregateBySpeciesAndDbh params stems = some agg →
      row.stems = (agg row.species row.dbhClass).stems.length ∧
      row.totalVolume = (agg row.species row.dbhClass).totalVolume) ∧
    out.newTotals.totalStems = (out.results.map (fun r => r.stems)).sum ∧
    out.newTotals.totalVolume = (out.results.map (fun r => r.totalVolume)).sum := by
  obtain ⟨-, -, -, ht1, ht2, -⟩ := calculateResults_some sqrtQ params divisors
    legacyPrices stems out hout
  obtain ⟨agg, sp, c, hagg, -, -, rfl⟩ := mem_results_decomp sqrtQ params divisors
    legacyPrices stems out row hout hrow
  rw [mkResultRow_species, mkResultRow_dbhClass] at hdiv
  have hprice :
      (mkResultRow params (forwardingCostOf sqrtQ params) divisors sp c (agg sp c)).pricePerCubicMeter
        = 0 := by
    rw [mkResultRow_price]
    rcases hd : divisorFor divisors sp c with _ | d
    · rfl
    · exact if_neg (not_lt.mpr (hdiv d hd))
  refine ⟨hprice, ?_, ?_, ht1, ht2⟩
  · rw [mkResultRow_totalPrice, hprice, zero_mul]
  · intro agg' hagg'
    obtain rfl : agg = agg' := Option.some_injective _ (hagg ▸ hagg')
    rw [mkResultRow_species, mkResultRow_dbhClass, mkResultRow_stems, mkResultRow_totalVolume]
    exact ⟨rfl, rfl⟩

/-! ### Single-record runs, for the concrete scenarios -/

theorem binData_ext (a b : BinData) (h1 : a.stems = b.stems) (h2 : a.totalTime = b.totalTime)
    (h3 : a.totalVolume = b.totalVolume) : a = b := by
  cases a
  cases b
  simp_all

theorem filter_eq_single_of_mem {l : List ℕ} {c : ℕ} (hnd : l.Nodup) (hc : c ∈ l) :
    l.filter (fun x => decide (x = c)) = [c] := by
  induction l with
  | nil => cases hc
  | cons x xs ih =>
    rcases List.mem_cons.mp hc with rfl | hc2
    · rw [List.filter_cons, if_pos (by simp)]
      have hz : xs.filter (fun y => decide (y = c)) = [] := by
        refine List.filter_eq_nil_iff.mpr ?_
        intro a ha
        simp only [decide_eq_true_eq]
        exact fun h => (List.nodup_cons.mp hnd).1 (h ▸ ha)
      rw [hz]
    · have hx : ¬(x = c) := fun h => (List.nodup_cons.mp hnd).1 (h ▸ hc2)
      rw [List.filter_cons, if_neg (by simpa using hx)]
      exact ih (List.nodup_cons.mp hnd).2 hc2

/-- A calculation run over a single record with a resolvable diameter
produces exactly one row: the bin of its (category, class) with that record,
the capped per-stem time and the record volume. -/
theorem calculateResults_single (sqrtQ : ℚ → ℚ) (params : CalculationParams)
    (divisors : SpeciesDivisors) (legacyPrices : List LegacyPriceEntry)
    (s : Stem) (c : ℕ) (hc : resolveDbhClass s.dbh = some c) :
    ∃ out, calculateResults sqrtQ params divisors legacyPrices [s] = some out ∧
      out.results = [mkResultRow params (forwardingCostOf sqrtQ params) divisors
        s.speciesCategory c
        { stems := [s]
          totalTime := min params.maxPerTreeTime 30
          totalVolume := s.stem_volume }] := by
  have hagg : aggregateBySpeciesAndDbh params [s]
      = some (List.foldl (aggStep (min params.maxPerTreeTime 30))
          (fun _ _ => emptyBinData) [s]) := by
    rw [aggregateBySpeciesAndDbh, if_neg (by simp)]
  set agg := List.foldl (aggStep (min params.maxPerTreeTime 30)) (fun _ _ => emptyBinData) [s]
    with hdefagg
  have hbin : ∀ sp k, agg sp k =
      if sp = s.speciesCategory ∧ k = c then
        { stems := [s]
          totalTime := min params.maxPerTreeTime 30
          totalVolume := s.stem_volume }
      else emptyBinData := by
    intro sp k
    obtain ⟨h1, h2, h3⟩ := aggregate_bins params [s] agg hagg sp k
    have hfp : [s].filter (binPred sp k) = if sp = s.speciesCategory ∧ k = c then [s] else [] := by
      by_cases hcond : sp = s.speciesCategory ∧ k = c
      · have hb : binPred sp k s = true := by
          simp [binPred, hcond.1.symm, hc, hcond.2.symm]
        rw [List.filter_singleton, hb, if_pos hcond]
        rfl
      · have hb : binPred sp k s = false := by
          simp only [binPred, decide_eq_false_iff_not]
          rintro ⟨ha, hb⟩
          rw [hc] at hb
          exact hcond ⟨ha.symm, (Option.some_injective _ hb).symm⟩
        rw [List.filter_singleton, hb, if_neg hcond]
        rfl
    by_cases hcond : sp = s.speciesCategory ∧ k = c
    · rw [if_pos hcond]
      refine binData_ext _ _ ?_ ?_ ?_
      · rw [h1, hfp, if_pos hcond]
      · rw [h2, hfp, if_pos hcond]
        simp
      · rw [h3, hfp, if_pos hcond]
        simp
    · rw [if_neg hcond]
      refine binData_ext _ _ ?_ ?_ ?_
      · rw [h1, hfp, if_neg hcond]
        rfl
      · rw [h2, hfp, if_neg hcond]
        simp [emptyBinData]
      · rw [h3, hfp, if_neg hcond]
        simp [emptyBinData]
  have hfilter : ∀ sp, DBH_CLASSES.filter (fun k => !(agg sp k).stems.isEmpty)
      = if sp = s.speciesCategory then [c] else [] := by
    intro sp
    by_cases hsp : sp = s.speciesCategory
    · rw [if_pos hsp]
      have hcond : ∀ k ∈ DBH_CLASSES, (!(agg sp k).stems.isEmpty) = decide (k = c) := by
        intro k _
        rw [hbin sp k]
        by_cases hk : k = c
        · simp [hsp, hk]
        · simp [hk, emptyBinData]
      rw [List.filter_congr hcond]
      exact filter_eq_single_of_mem (by decide) (resolveDbhClass_mem _ _ hc)
    · rw [if_neg hsp]
      refine List.filter_eq_nil_iff.mpr ?_
      intro k hk
      rw [hbin sp k, if_neg (fun hcond => hsp hcond.1)]
      simp [emptyBinData]
  refine ⟨_, by rw [calculateResults, hagg], ?_⟩
  show ((SUPPORTED_SPECIES.map (fun species =>
      ((DBH_CLASSES.filter (fun dbhClass => !(agg species dbhClass).stems.isEmpty)).map
        (fun dbhClass =>
          mkResultRow params (forwardingCostOf sqrtQ params) divisors species dbhClass
            (agg species dbhClass))))).flatten) = _
  have hrw : ∀ sp, ((DBH_CLASSES.filter (fun dbhClass => !(agg sp dbhClass).stems.isEmpty)).map
      (fun dbhClass =>
        mkResultRow params (forwardingCostOf sqrtQ params) divisors sp dbhClass
          (agg sp dbhClass)))
      = if sp = s.speciesCategory then
          [mkResultRow params (forwardingCostOf sqrtQ params) divisors s.speciesCategory c
            { stems := [s]
              totalTime := min params.maxPerTreeTime 30
              totalVolume := s.stem_volume }]
        else [] := by
    intro sp
    rw [hfilter sp]
    by_cases hsp : sp = s.speciesCategory
    · rw [if_pos hsp, if_pos hsp, List.map_cons, List.map_nil,
        hbin sp c, if_pos ⟨hsp, rfl⟩, hsp]
    · rw [if_neg hsp, if_neg hsp, List.map_nil]
  rw [List.map_congr_left (fun sp _ => hrw sp)]
  rcases hcs : s.speciesCategory with _ | _ | _ <;>
    simp [SUPPORTED_SPECIES, hcs]

/-- C1. The §8 scenario: one record with diameter 150 mm, volume 0.8 m³ and a
species name matching the spruce family, divisor 20 for (spruce, 160-class),
harvesting cost rate 1800 — the run yields exactly one row, for spruce at
class 160 with one stem, price 90 kr/m³ and total price 72 kr, whatever
square-root function the forwarding model uses. -/
theorem scenario_single_spruce_record (sqrtQ : ℚ → ℚ) :
    ∃ out, calculateResults sqrtQ scenarioParams scenarioDivisors initialLegacyPrices
        [scenarioStem] = some out ∧
      out.results.map (fun row =>
        (row.species, row.dbhClass, row.stems, row.pricePerCubicMeter, row.totalPrice))
        = [(SpeciesCategory.Gran, 160, 1, 90, 72)] := by
  have hdbh : resolveDbhClass scenarioStem.dbh = some 160 := by decide
  obtain ⟨out, hout, hres⟩ := calculateResults_single sqrtQ scenarioParams scenarioDivisors
    initialLegacyPrices scenarioStem 160 hdbh
  refine ⟨out, hout, ?_⟩
  rw [hres]
  have hcat : scenarioStem.speciesCategory = SpeciesCategory.Gran := by decide
  have hdiv : divisorFor scenarioDivisors SpeciesCategory.Gran 160 = some 20 := by decide
  rw [List.map_cons, List.map_nil, hcat]
  rw [mkResultRow_species, mkResultRow_dbhClass, mkResultRow_stems, mkResultRow_price,
    mkResultRow_totalPrice, mkResultRow_price, hdiv]
  norm_num [scenarioParams, scenarioStem]

/-- Witness for C3: the scenario dataset against the all-unset divisor table
produces one unpriced row that still carries its stems and volume. -/
theorem unpriced_bin_zero_witness :
    ∃ out row, calculateResults (fun _ => 0) scenarioParams unpricedDivisors
        initialLegacyPrices [scenarioStem] = some out ∧
      row ∈ out.results ∧
      (row.pricePerCubicMeter = 0 ∧ row.totalPrice = 0 ∧
        (∀ agg, aggregateBySpeciesAndDbh scenarioParams [scenarioStem] = some agg →
          row.stems = (agg row.species row.dbhClass).stems.length ∧
          row.totalVolume = (agg row.species row.dbhClass).totalVolume) ∧
        out.newTotals.totalStems = (out.results.map (fun r => r.stems)).sum ∧
        out.newTotals.totalVolume = (out.results.map (fun r => r.totalVolume)).sum) := by
  have hdbh : resolveDbhClass scenarioStem.dbh = some 160 := by decide
  obtain ⟨out, hout, hres⟩ := calculateResults_single (fun _ => 0) scenarioParams
    unpricedDivisors initialLegacyPrices scenarioStem 160 hdbh
  have hmem : mkResultRow scenarioParams (forwardingCostOf (fun _ => 0) scenarioParams)
      unpricedDivisors scenarioStem.speciesCategory 160
      { stems := [scenarioStem]
        totalTime := min scenarioParams.maxPerTreeTime 30
        totalVolume := scenarioStem.stem_volume } ∈ out.results := by
    rw [hres]
    exact List.mem_singleton.mpr rfl
  refine ⟨out, _, hout, hmem, ?_⟩
  refine unpriced_bin_zero (fun _ => 0) scenarioParams unpricedDivisors
    initialLegacyPrices [scenarioStem] out _ hout hmem ?_
  intro d hd
  rw [mkResultRow_species, mkResultRow_dbhClass] at hd
  rw [show divisorFor unpricedDivisors scenarioStem.speciesCategory 160 = none from by decide]
    at hd
  exact Option.noConfusion hd

/-! ### The bulk importer: cursor and assignment lemmas -/

theorem advanceCursorAux_ge (assigned : List ℕ) (len : ℕ) :
    ∀ fuel f, f ≤ advanceCursorAux assigned len fuel f := by
  intro fuel
  induction fuel with
  | zero => intro f; exact le_refl f
  | succ fuel ih =>
    intro f
    rw [advanceCursorAux]
    split
    · exact le_trans (Nat.le_succ f) (ih (f + 1))
    · exact le_refl f

theorem advanceCursor_ge (assigned : List ℕ) (len f : ℕ) :
    f ≤ advanceCursor assigned len f :=
  advanceCursorAux_ge assigned len _ f

theorem advanceCursorAux_not_mem (assigned : List ℕ) (len : ℕ) :
    ∀ fuel f, len ≤ f + fuel →
      advanceCursorAux assigned len fuel f < len →
      advanceCursorAux assigned len fuel f ∉ assigned := by
  intro fuel
  induction fuel with
  | zero =>
    intro f hfuel hlt
    rw [advanceCursorAux] at hlt
    omega
  | succ fuel ih =>
    intro f hfuel
    rw [advanceCursorAux]
    split
    · exact ih (f + 1) (by omega)
    · intro hlt hmem
      rename_i hcond
      exact hcond ⟨hlt, hmem⟩

theorem advanceCursor_not_mem (assigned : List ℕ) (len f : ℕ)
    (h : advanceCursor assigned len f < len) : advanceCursor assigned len f ∉ assigned :=
  advanceCursorAux_not_mem assigned len _ f (by omega) h

theorem advanceCursor_eq_self_of_not_mem (assigned : List ℕ) (len f : ℕ)
    (h : f ∉ assigned) : advanceCursor assigned len f = f := by
  rw [advanceCursor]
  cases hfuel : len - f with
  | zero => rfl
  | succ fuel =>
    rw [advanceCursorAux, if_neg (fun hcond => h hcond.2)]

theorem attemptAssign_fallbackIndex (st : ImportState) (index : ℕ) (tok : Option String) :
    (attemptAssign st index tok).fallbackIndex = st.fallbackIndex := by
  rw [attemptAssign.eq_def]
  rcases tok with _ | t
  · rfl
  · dsimp only
    split
    · split <;> rfl
    · rfl

theorem attemptAssign_getD_ne (st : ImportState) (index : ℕ) (tok : Option String)
    (i : ℕ) (hi : i ≠ index) :
    (attemptAssign st index tok).next.getD i { averageVolume := 0, price := 0 }
      = st.next.getD i { averageVolume := 0, price := 0 } := by
  rw [attemptAssign.eq_def]
  rcases tok with _ | t
  · rfl
  · dsimp only
    split
    · split
      · dsimp only
        rw [List.getD_eq_getElem?_getD, List.getElem?_set_ne (fun h => hi h.symm),
          List.getD_eq_getElem?_getD]
      · rfl
    · rfl

/-- Every line either only moves the positional cursor or hands off to
`attemptAssign` on a state differing from the input only in the cursor. -/
theorem processLine_shape (st : ImportState) (line : String) :
    (∃ fb index tok, processLine st line
        = attemptAssign { st with fallbackIndex := fb } index tok) ∨
    (∃ fb, processLine st line = { st with fallbackIndex := fb }) := by
  rw [processLine]
  dsimp only
  by_cases h1 : jsTrim line = ""
  · rw [if_pos h1]
    exact Or.inr ⟨st.fallbackIndex, rfl⟩
  · rw [if_neg h1]
    by_cases h2 : numericTokensForLine (jsTrim line) = []
    · rw [if_pos h2]
      exact Or.inr ⟨st.fallbackIndex, rfl⟩
    · rw [if_neg h2]
      rcases hmatch : lineFirstMatch (numericTokensForLine (jsTrim line)) with _ | ⟨mi, mv⟩
      · dsimp only
        split
        · exact Or.inr ⟨_, rfl⟩
        · exact Or.inl ⟨_, _, _, rfl⟩
      · exact Or.inl ⟨st.fallbackIndex, _, _, rfl⟩

/-! ### C7: success reporting and the caller -/

theorem attemptAssign_invariant (st : ImportState) (index : ℕ) (tok : Option String)
    (hupd : st.updated = true ↔ st.assigned ≠ [])
    (hpos : ∀ i ∈ st.assigned, i < st.next.length ∧
      0 < (st.next.getD i { averageVolume := 0, price := 0 }).price) :
    (attemptAssign st index tok).next.length = st.next.length ∧
    ((attemptAssign st index tok).updated = true ↔ (attemptAssign st index tok).assigned ≠ []) ∧
    ∀ i ∈ (attemptAssign st index tok).assigned,
      i < (attemptAssign st index tok).next.length ∧
        0 < ((attemptAssign st index tok).next.getD i { averageVolume := 0, price := 0 }).price := by
  rw [attemptAssign.eq_def]
  rcases tok with _ | t
  · exact ⟨rfl, hupd, hpos⟩
  · dsimp only
    by_cases hlen : index < st.next.length
    · rw [if_pos hlen]
      by_cases hv : 0 < parseNumber t
      · rw [if_pos hv]
        refine ⟨List.length_set st.next index _, by simp, ?_⟩
        intro i hi
        rw [List.length_set]
        rcases List.mem_cons.mp hi with rfl | hi2
        · refine ⟨hlen, ?_⟩
          rw [List.getD_eq_getElem?_getD, List.getElem?_set_self hlen]
          exact hv
        · refine ⟨(hpos i hi2).1, ?_⟩
          by_cases hie : i = index
          · subst hie
            rw [List.getD_eq_getElem?_getD, List.getElem?_set_self hlen]
            exact hv
          · rw [List.getD_eq_getElem?_getD, List.getElem?_set_ne (fun h => hie h.symm),
              ← List.getD_eq_getElem?_getD]
            exact (hpos i hi2).2
      · rw [if_neg hv]
        exact ⟨rfl, hupd, hpos⟩
    · rw [if_neg hlen]
      exact ⟨rfl, hupd, hpos⟩

theorem processLine_invariant (st : ImportState) (line : String)
    (hupd : st.updated = true ↔ st.assigned ≠ [])
    (hpos : ∀ i ∈ st.assigned, i < st.next.length ∧
      0 < (st.next.getD i { averageVolume := 0, price := 0 }).price) :
    (processLine st line).next.length = st.next.length ∧
    ((processLine st line).updated = true ↔ (processLine st line).assigned ≠ []) ∧
    ∀ i ∈ (processLine st line).assigned,
      i < (processLine st line).next.length ∧
        0 < ((processLine st line).next.getD i { averageVolume := 0, price := 0 }).price := by
  rcases processLine_shape st line with ⟨fb, index, tok, heq⟩ | ⟨fb, heq⟩
  · rw [heq]
    exact attemptAssign_invariant { st with fallbackIndex := fb } index tok hupd hpos
  · rw [heq]
    exact ⟨rfl, hupd, hpos⟩

theorem foldl_processLine_invariant (lines : List String) (st : ImportState)
    (hupd : st.updated = true ↔ st.assigned ≠ [])
    (hpos : ∀ i ∈ st.assigned, i < st.next.length ∧
      0 < (st.next.getD i { averageVolume := 0, price := 0 }).price) :
    (lines.foldl processLine st).next.length = st.next.length ∧
    ((lines.foldl processLine st).updated = true ↔ (lines.foldl processLine st).assigned ≠ []) ∧
    ∀ i ∈ (lines.foldl processLine st).assigned,
      i < (lines.foldl processLine st).next.length ∧
        0 < ((lines.foldl processLine st).next.getD i { averageVolume := 0, price := 0 }).price := by
  induction lines generalizing st with
  | nil => exact ⟨rfl, hupd, hpos⟩
  | cons l rest ih =>
    rw [List.foldl_cons]
    obtain ⟨h1, h2, h3⟩ := processLine_invariant st l hupd hpos
    obtain ⟨g1, g2, g3⟩ := ih (processLine st l) h2 h3
    exact ⟨g1.trans h1, g2, g3⟩

/-- C7. A bulk-import pass reports success exactly when it committed at least
one entry — every index it committed is in range and carries a strictly
positive price — and `handleApplyBulkPricing` clears the paste input and
closes the paste panel exactly when success is reported, while always
adopting the updated table. -/
theorem bulk_import_success_iff (text : String) (previous : List LegacyPriceEntry)
    (ui : BulkPasteUI) :
    ((applyBulkPricing text previous).2 = true
      ↔ (applyBulkPricingState text previous).assigned ≠ []) ∧
    (∀ i ∈ (applyBulkPricingState text previous).assigned,
      i < previous.length ∧
        0 < ((applyBulkPricingState text previous).next.getD i
          { averageVolume := 0, price := 0 }).price) ∧
    (handleApplyBulkPricing ui =
      if (applyBulkPricing ui.bulkPriceText ui.legacyPrices).2 then
        { bulkPriceText := "", showBulkPaste := false,
          legacyPrices := (applyBulkPricing ui.bulkPriceText ui.legacyPrices).1 }
      else
        { ui with legacyPrices := (applyBulkPricing ui.bulkPriceText ui.legacyPrices).1 }) := by
  obtain ⟨hlen, hupd, hpos⟩ := foldl_processLine_invariant (splitLines (jsTrim text))
    { next := previous, assigned := [], fallbackIndex := 0, updated := false }
    (by simp) (by simp)
  refine ⟨?_, ?_, ?_⟩
  · rw [applyBulkPricing]
    by_cases htext : jsTrim text = ""
    · rw [if_pos htext]
      constructor
      · intro h
        exact absurd h (by simp)
      · intro h
        exfalso
        apply h
        have : applyBulkPricingState text previous
            = (splitLines (jsTrim text)).foldl processLine
              { next := previous, assigned := [], fallbackIndex := 0, updated := false } := rfl
        rw [this, htext]
        rfl
    · rw [if_neg htext]
      exact hupd
  · intro i hi
    obtain ⟨h1, h2⟩ := hpos i hi
    exact ⟨by rw [← hlen]; exact h1, h2⟩
  · rw [handleApplyBulkPricing]

/-! ### C10: a skipped breakpoint stays skipped -/

theorem processLine_positional_skip (st : ImportState) (line : String)
    (htok : numericTokensForLine (jsTrim line) ≠ [])
    (hnm : lineFirstMatch (numericTokensForLine (jsTrim line)) = none)
    (hlast : parseNumber ((numericTokensForLine (jsTrim line)).getLastD "") ≤ 0)
    (hm : advanceCursor st.assigned st.next.length st.fallbackIndex < st.next.length) :
    processLine st line
      = { st with
          fallbackIndex := advanceCursor st.assigned st.next.length st.fallbackIndex + 1 } := by
  have hne : jsTrim line ≠ "" := by
    intro h
    apply htok
    rw [h]
    rfl
  obtain ⟨tok, htk⟩ : ∃ tok, (numericTokensForLine (jsTrim line)).getLast? = some tok := by
    cases h : (numericTokensForLine (jsTrim line)).getLast? with
    | none => exact absurd (List.getLast?_eq_none_iff.mp h) htok
    | some t => exact ⟨t, rfl⟩
  have htokval : parseNumber tok ≤ 0 := by
    have : (numericTokensForLine (jsTrim line)).getLastD "" = tok := by
      rw [List.getLastD_eq_getLast?, htk]
      rfl
    rw [← this]
    exact hlast
  have hnotmem := advanceCursor_not_mem st.assigned st.next.length st.fallbackIndex hm
  rw [processLine]
  dsimp only
  rw [if_neg hne, if_neg htok, hnm]
  dsimp only
  rw [if_neg (not_le.mpr hm)]
  rw [secondAdjust, if_neg hnotmem, htk, attemptAssign.eq_def]
  dsimp only
  rw [if_pos hm, if_neg (not_lt.mpr htokval)]

theorem processLine_positional_frame (st : ImportState) (line : String)
    (hnm : lineFirstMatch (numericTokensForLine (jsTrim line)) = none) :
    st.fallbackIndex ≤ (processLine st line).fallbackIndex ∧
    ∀ i < st.fallbackIndex,
      (processLine st line).next.getD i { averageVolume := 0, price := 0 }
        = st.next.getD i { averageVolume := 0, price := 0 } := by
  rw [processLine]
  dsimp only
  by_cases h1 : jsTrim line = ""
  · rw [if_pos h1]
    exact ⟨le_refl _, fun i _ => rfl⟩
  · rw [if_neg h1]
    by_cases h2 : numericTokensForLine (jsTrim line) = []
    · rw [if_pos h2]
      exact ⟨le_refl _, fun i _ => rfl⟩
    · rw [if_neg h2, hnm]
      dsimp only
      have hge : st.fallbackIndex
          ≤ advanceCursor st.assigned st.next.length st.fallbackIndex :=
        advanceCursor_ge _ _ _
      by_cases h3 : st.next.length ≤ advanceCursor st.assigned st.next.length st.fallbackIndex
      · rw [if_pos h3]
        exact ⟨hge, fun i _ => rfl⟩
      · rw [if_neg h3]
        constructor
        · rw [attemptAssign_fallbackIndex]
          exact le_trans hge (Nat.le_succ _)
        · intro i hi
          rw [attemptAssign_getD_ne]
          omega

theorem foldl_positional_frame (rest : List String) (st : ImportState) (m : ℕ)
    (hm : m < st.fallbackIndex)
    (hrest : ∀ l ∈ rest, lineFirstMatch (numericTokensForLine (jsTrim l)) = none) :
    m < (rest.foldl processLine st).fallbackIndex ∧
    (rest.foldl processLine st).next.getD m { averageVolume := 0, price := 0 }
      = st.next.getD m { averageVolume := 0, price := 0 } := by
  induction rest generalizing st with
  | nil => exact ⟨hm, rfl⟩
  | cons l rest ih =>
    rw [List.foldl_cons]
    obtain ⟨hge, hframe⟩ := processLine_positional_frame st l (hrest l (List.mem_cons_self l rest))
    obtain ⟨g1, g2⟩ := ih (processLine st l) (lt_of_lt_of_le hm hge)
      (fun x hx => hrest x (List.mem_cons_of_mem _ hx))
    exact ⟨g1, g2.trans (hframe m hm)⟩

/-- C10. A line with no breakpoint-matching token whose last token parses to
a non-positive value commits nothing — the table, the assigned set and the
success flag are untouched — yet the positional cursor still advances past
its target index, and no later line without a breakpoint-matching token can
ever fill that index: its table entry is unchanged at the end of the pass. -/
theorem positional_nonpositive_skips_breakpoint (st : ImportState) (line : String)
    (rest : List String)
    (htok : numericTokensForLine (jsTrim line) ≠ [])
    (hnm : lineFirstMatch (numericTokensForLine (jsTrim line)) = none)
    (hlast : parseNumber ((numericTokensForLine (jsTrim line)).getLastD "") ≤ 0)
    (hm : advanceCursor st.assigned st.next.length st.fallbackIndex < st.next.length)
    (hrest : ∀ l ∈ rest, lineFirstMatch (numericTokensForLine (jsTrim l)) = none) :
    processLine st line
      = { st with
          fallbackIndex := advanceCursor st.assigned st.next.length st.fallbackIndex + 1 } ∧
    (rest.foldl processLine (processLine st line)).next.getD
        (advanceCursor st.assigned st.next.length st.fallbackIndex)
        { averageVolume := 0, price := 0 }
      = st.next.getD (advanceCursor st.assigned st.next.length st.fallbackIndex)
        { averageVolume := 0, price := 0 } := by
  have hskip := processLine_positional_skip st line htok hnm hlast hm
  refine ⟨hskip, ?_⟩
  obtain ⟨-, g2⟩ := foldl_positional_frame rest (processLine st line)
    (advanceCursor st.assigned st.next.length st.fallbackIndex)
    (by rw [hskip]; exact Nat.lt_succ_self _) hrest
  rw [g2, hskip]

/-- Witness for C10: on the initial table, the line `0` advances the cursor
past breakpoint 0 without committing, and the following line `7` lands on
breakpoint 1, leaving entry 0 untouched. -/
theorem positional_nonpositive_skips_breakpoint_witness :
    processLine initImportState "0" = { initImportState with fallbackIndex := 1 } ∧
    ((["7"] : List String).foldl processLine (processLine initImportState "0")).next.getD 0
        { averageVolume := 0, price := 0 }
      = initImportState.next.getD 0 { averageVolume := 0, price := 0 } := by
  have hadv : advanceCursor initImportState.assigned initImportState.next.length
      initImportState.fallbackIndex = 0 := by decide
  have h := positional_nonpositive_skips_breakpoint initImportState "0" ["7"]
    (by decide) (by with_unfolding_all decide) (by with_unfolding_all decide)
    (by with_unfolding_all decide) (by with_unfolding_all decide)
  rw [hadv] at h
  exact h

/-! ### C8: single-column pastes fill breakpoints in ascending order -/

theorem findIdx?_none_of_all {α : Type} (p : α → Bool) :
    ∀ (l : List α) (i : ℕ), (∀ x ∈ l, p x = false) → l.findIdx? p i = none := by
  intro l
  induction l with
  | nil => intro i _; rfl
  | cons x xs ih =>
    intro i h
    rw [List.findIdx?_cons, if_neg (by rw [h x (List.mem_cons_self x xs)]; simp)]
    exact ih (i + 1) (fun y hy => h y (List.mem_cons_of_mem _ hy))

/-- A line with exactly one positive non-matching token commits that value at
the cursor position and advances the cursor. -/
theorem processLine_positional_commit (st : ImportState) (line : String) (t : String)
    (htok : numericTokensForLine (jsTrim line) = [t])
    (hpos : 0 < parseNumber t)
    (hnm : lineFirstMatch [t] = none)
    (hnotmem : st.fallbackIndex ∉ st.assigned)
    (hlt : st.fallbackIndex < st.next.length) :
    processLine st line
      = { next := st.next.set st.fallbackIndex
            { averageVolume :=
                (st.next.getD st.fallbackIndex { averageVolume := 0, price := 0 }).averageVolume
              price := parseNumber t }
          assigned := st.fallbackIndex :: st.assigned
          fallbackIndex := st.fallbackIndex + 1
          updated := true } := by
  have hne : jsTrim line ≠ "" := by
    intro h
    rw [h] at htok
    exact List.noConfusion (htok : ([] : List String) = [t])
  have hadv : advanceCursor st.assigned st.next.length st.fallbackIndex = st.fallbackIndex :=
    advanceCursor_eq_self_of_not_mem _ _ _ hnotmem
  rw [processLine]
  dsimp only
  rw [if_neg hne, htok, if_neg (by simp : ¬([t] = ([] : List String))), hnm]
  dsimp only
  rw [hadv, if_neg (not_le.mpr hlt)]
  rw [secondAdjust, if_neg hnotmem, attemptAssign.eq_def]
  simp only [List.getLast?_singleton]
  rw [if_pos hlt, if_pos hpos]

/-- Folding positional single-token lines over a state whose assigned set is
exactly the indices below the cursor fills consecutive breakpoints with the
line values, in order, leaving earlier entries untouched. -/
theorem foldl_positional_fill (lines : List String) (st : ImportState)
    (hassigned : ∀ i, i ∈ st.assigned ↔ i < st.fallbackIndex)
    (hfb : st.fallbackIndex ≤ st.next.length)
    (hlines : ∀ l ∈ lines, ∃ t, numericTokensForLine (jsTrim l) = [t] ∧
      0 < parseNumber t ∧ lineFirstMatch [t] = none) :
    (∀ i < st.fallbackIndex,
      (lines.foldl processLine st).next.getD i { averageVolume := 0, price := 0 }
        = st.next.getD i { averageVolume := 0, price := 0 }) ∧
    ∀ k (hk : k < lines.length), st.fallbackIndex + k < st.next.length →
      (lines.foldl processLine st).next.getD (st.fallbackIndex + k)
          { averageVolume := 0, price := 0 }
        = { averageVolume := (st.next.getD (st.fallbackIndex + k)
              { averageVolume := 0, price := 0 }).averageVolume
            price := parseNumber
              ((numericTokensForLine (jsTrim (lines.get ⟨k, hk⟩))).headD "") } := by
  induction lines generalizing st with
  | nil =>
    refine ⟨fun i _ => rfl, ?_⟩
    intro k hk
    exact absurd hk (by simp)
  | cons l rest ih =>
    obtain ⟨t, htok, hpos, hnm⟩ := hlines l (List.mem_cons_self l rest)
    have hlinesRest : ∀ x ∈ rest, ∃ t, numericTokensForLine (jsTrim x) = [t] ∧
        0 < parseNumber t ∧ lineFirstMatch [t] = none :=
      fun x hx => hlines x (List.mem_cons_of_mem _ hx)
    rw [List.foldl_cons]
    by_cases hcase : st.fallbackIndex < st.next.length
    · have hnotmem : st.fallbackIndex ∉ st.assigned :=
        fun h => absurd ((hassigned _).mp h) (lt_irrefl _)
      have hcommit := processLine_positional_commit st l t htok hpos hnm hnotmem hcase
      rw [hcommit]
      have hassigned' : ∀ i, i ∈ st.fallbackIndex :: st.assigned ↔ i < st.fallbackIndex + 1 := by
        intro i
        rw [List.mem_cons, hassigned i]
        omega
      have hlen' : (st.next.set st.fallbackIndex
          { averageVolume :=
              (st.next.getD st.fallbackIndex { averageVolume := 0, price := 0 }).averageVolume
            price := parseNumber t }).length = st.next.length := List.length_set _ _ _
      obtain ⟨ih1, ih2⟩ := ih
        { next := st.next.set st.fallbackIndex
            { averageVolume :=
                (st.next.getD st.fallbackIndex { averageVolume := 0, price := 0 }).averageVolume
              price := parseNumber t }
          assigned := st.fallbackIndex :: st.assigned
          fallbackIndex := st.fallbackIndex + 1
          updated := true }
        hassigned' (by dsimp only; rw [hlen']; omega) hlinesRest

      refine ⟨?_, ?_⟩
      · intro i hi
        rw [ih1 i (by dsimp only; omega)]
        dsimp only
        rw [List.getD_eq_getElem?_getD, List.getElem?_set_ne (by omega),
          ← List.getD_eq_getElem?_getD]
      · intro k hk hrange
        rcases k with _ | k'
        · have h0 := ih1 st.fallbackIndex (by dsimp only; omega)
          dsimp only at h0
          simp only [Nat.add_zero]
          rw [h0, List.getD_eq_getElem?_getD, List.getElem?_set_self hcase]
          rw [show ((l :: rest).get ⟨0, hk⟩) = l from rfl, htok]
          rfl
        · have hidx : st.fallbackIndex + (k' + 1) = (st.fallbackIndex + 1) + k' := by omega
          have hk' : k' < rest.length := by
            rw [List.length_cons] at hk
            omega
          have := ih2 k' hk' (by dsimp only; rw [hlen']; omega)
          dsimp only at this
          rw [hidx, this, List.get_cons_succ]
          rw [List.getD_eq_getElem?_getD, List.getElem?_set_ne (by omega),
            ← List.getD_eq_getElem?_getD]
    · have hfbeq : st.fallbackIndex = st.next.length := le_antisymm hfb (not_lt.mp hcase)
      have hne : jsTrim l ≠ "" := by
        intro h
        rw [h] at htok
        exact List.noConfusion (htok : ([] : List String) = [t])
      have hstay : processLine st l = st := by
        rw [processLine]
        dsimp only
        rw [if_neg hne, htok, if_neg (by simp : ¬([t] = ([] : List String))), hnm]
        dsimp only
        have hadv : advanceCursor st.assigned st.next.length st.fallbackIndex
            = st.fallbackIndex := by
          rw [advanceCursor, hfbeq, Nat.sub_self]
          rfl
        rw [hadv, if_pos (le_of_eq hfbeq.symm)]
      rw [hstay]
      obtain ⟨ih1, ih2⟩ := ih st hassigned hfb hlinesRest
      refine ⟨ih1, ?_⟩
      intro k hk hrange
      omega

/-- C8. When every pasted line carries exactly one strictly positive numeric
token and no token lies within the tolerance of any fixed average-volume
breakpoint, the import assigns the value of the k-th line as the price of
the k-th table entry, in ascending breakpoint order. -/
theorem bulk_positional_ascending (text : String) (previous : List LegacyPriceEntry)
    (hlines : ∀ l ∈ splitLines (jsTrim text), ∃ t, numericTokensForLine (jsTrim l) = [t] ∧
      0 < parseNumber t ∧
      ∀ bp ∈ LEGACY_AVERAGE_VOLUMES, ¬(|bp - parseNumber t| < IMPORT_TOLERANCE)) :
    ∀ k (hk : k < (splitLines (jsTrim text)).length), k < previous.length →
      ((applyBulkPricing text previous).1.getD k { averageVolume := 0, price := 0 }).price
        = parseNumber
            ((numericTokensForLine
              (jsTrim ((splitLines (jsTrim text)).get ⟨k, hk⟩))).headD "") := by
  have hlinesConv : ∀ l ∈ splitLines (jsTrim text), ∃ t,
      numericTokensForLine (jsTrim l) = [t] ∧ 0 < parseNumber t ∧
        lineFirstMatch [t] = none := by
    intro l hl
    obtain ⟨t, h1, h2, h3⟩ := hlines l hl
    refine ⟨t, h1, h2, ?_⟩
    have hfind : LEGACY_AVERAGE_VOLUMES.findIdx?
        (fun volume => decide (|volume - parseNumber t| < IMPORT_TOLERANCE)) = none := by
      apply findIdx?_none_of_all
      intro bp hbp
      simpa using h3 bp hbp
    rw [lineFirstMatch]
    simp [List.filterMap_cons, not_le.mpr h2, hfind]
  by_cases htext : jsTrim text = ""
  · intro k hk hlen
    exfalso
    obtain ⟨t, h1, -, -⟩ := hlinesConv "" (by
      rw [htext]
      exact List.mem_singleton.mpr rfl)
    exact List.noConfusion (h1 : ([] : List String) = [t])
  · intro k hk hlen
    rw [applyBulkPricing, if_neg htext]
    dsimp only
    obtain ⟨-, fill2⟩ := foldl_positional_fill (splitLines (jsTrim text))
      { next := previous, assigned := [], fallbackIndex := 0, updated := false }
      (by intro i; simp) (by simp) hlinesConv
    have hfill := fill2 k hk (by simpa using hlen)
    dsimp only at hfill
    rw [show applyBulkPricingState text previous
        = (splitLines (jsTrim text)).foldl processLine
          { next := previous, assigned := [], fallbackIndex := 0, updated := false } from rfl]
    rw [show (0 : ℕ) + k = k from by omega] at hfill
    rw [hfill]

/-- Witness for C8: pasting three plain prices fills the first three
breakpoints in order; the second gets 115. -/
theorem bulk_positional_ascending_witness :
    ((applyBulkPricing "110\n115\n120" initialLegacyPrices).1.getD 1
      { averageVolume := 0, price := 0 }).price = 115 := by
  have hlines : ∀ l ∈ splitLines (jsTrim "110\n115\n120"), ∃ t,
      numericTokensForLine (jsTrim l) = [t] ∧ 0 < parseNumber t ∧
        ∀ bp ∈ LEGACY_AVERAGE_VOLUMES, ¬(|bp - parseNumber t| < IMPORT_TOLERANCE) := by
    intro l hl
    rw [show splitLines (jsTrim "110\n115\n120") = ["110", "115", "120"] from by decide] at hl
    simp only [List.mem_cons, List.mem_singleton, List.not_mem_nil, or_false] at hl
    rcases hl with rfl | rfl | rfl
    · exact ⟨"110", by decide, by with_unfolding_all decide, by with_unfolding_all decide⟩
    · exact ⟨"115", by decide, by with_unfolding_all decide, by with_unfolding_all decide⟩
    · exact ⟨"120", by decide, by with_unfolding_all decide, by with_unfolding_all decide⟩
  have h := bulk_positional_ascending "110\n115\n120" initialLegacyPrices hlines 1
    (by decide) (by decide)
  rw [h]
  with_unfolding_all decide

/-! ### C9: file concatenation without deduplication -/

theorem processFiles_foldl_stems (files : List (Option ParsedFile)) (init : List Stem × ℕ) :
    (files.foldl
      (fun acc file =>
        match file with
        | none => acc
        | some parsed => (acc.1 ++ parsed.stems, acc.2 + parsed.logCount))
      init).1
      = init.1 ++ ((files.filterMap id).map (fun parsed => parsed.stems)).flatten := by
  induction files generalizing init with
  | nil => simp
  | cons f rest ih =>
    rw [List.foldl_cons]
    rcases f with _ | parsed
    · rw [ih]
      simp [List.filterMap_cons]
    · rw [ih]
      simp [List.filterMap_cons, List.append_assoc]

/-- C9. Processing files concatenates the records of every successfully
parsed file, in order, with no deduplication: a fresh upload is exactly the
concatenation, an appending upload tacks it onto the previous dataset, and
re-uploading a file on top of its own first upload doubles its records. -/
theorem processFiles_concat_no_dedup (files : List (Option ParsedFile))
    (prevStems : List Stem) (prevLogCount : ℕ) (pf : ParsedFile) (hne : files ≠ []) :
    (processFiles false prevStems prevLogCount files).1
        = ((files.filterMap id).map (fun parsed => parsed.stems)).flatten ∧
    (processFiles true prevStems prevLogCount files).1
        = prevStems ++ ((files.filterMap id).map (fun parsed => parsed.stems)).flatten ∧
    (processFiles true ((processFiles false prevStems prevLogCount [some pf]).1) 0
        [some pf]).1
      = pf.stems ++ pf.stems := by
  have hsingle : (processFiles false prevStems prevLogCount [some pf]).1 = pf.stems := by
    rw [processFiles, if_neg (by simp), processFiles_foldl_stems]
    simp
  refine ⟨?_, ?_, ?_⟩
  · rw [processFiles, if_neg hne, processFiles_foldl_stems]
    rfl
  · rw [processFiles, if_neg hne, processFiles_foldl_stems]
    rfl
  · rw [hsingle, processFiles, if_neg (by simp), processFiles_foldl_stems]
    simp

/-- Witness for C9: one parsed file with one record, uploaded fresh and then
re-uploaded in append mode. -/
theorem processFiles_concat_no_dedup_witness :
    (processFiles false [] 0 [some scenarioFile]).1
        = (([some scenarioFile].filterMap id).map (fun parsed => parsed.stems)).flatten ∧
    (processFiles true [] 0 [some scenarioFile]).1
        = [] ++ (([some scenarioFile].filterMap id).map (fun parsed => parsed.stems)).flatten ∧
    (processFiles true ((processFiles false [] 0 [some scenarioFile]).1) 0
        [some scenarioFile]).1
      = scenarioFile.stems ++ scenarioFile.stems :=
  processFiles_concat_no_dedup [some scenarioFile] [] 0 scenarioFile (by simp)

end HarvesterApp
